import Mathlib

/-
Shallow embedding of src/skiplist.h (namespace nonstd), a skip-list container.

Modelling choices, each tied to the source:
* A node (detail::node) holds an immutable key `mKey` and a vector `mRhs` of
  forward pointers, one per level it participates in; `mRhs.size()` is the
  node's height.  Pointers are modelled as `Option Nat`: `some i` is a pointer
  to the node at arena index `i`, `none` is nullptr.
* The container owns its nodes.  We model the heap as an append-only arena
  `arena : List (node α)`; `mNodeAllocator.allocate` appends a fresh slot (a
  legal allocator behaviour: fresh storage for every allocation), and
  `deallocate` records the index in `freed` while the stale bytes stay in
  place, unchanged, as they do in a real heap until someone rewrites them.
* The head sentinel (`mHead` in the C++ class) is a node with a dummy key that
  is never read; we keep only its pointer vector `mHead : List (Option Nat)`.
* The comparator `mCompare` is the C++ comparator instance: a Bool-valued
  strict-order test, stored in the container as in the source.
* `rand() % 2` coin flips are passed in explicitly as a `List Bool`; the
  height loop `while (height < MAX_HEIGHT && rand() % 2) height++;` becomes
  `chooseHeight`.  An exhausted list behaves like a false flip, which loses no
  generality: every reachable height is reached by some finite list.
* The static predecessor buffer (detail::pointers_to_node) is rewritten by
  `discoverLinksToUpdate` before each use, for exactly the levels the caller
  reads, so it is modelled as the value returned by discovery.  Buffer entries
  point either at the head or at a node: `Option Nat` with `none` = head.
* Loops that follow pointers get fuel `arena.length + 1`; on every state the
  C++ code terminates on, this fuel is enough (proved where needed).
-/

namespace nonstd

/-- detail::MAX_HEIGHT: the max height that the skiplist can be. -/
def MAX_HEIGHT : Nat := 10

/-- detail::node: the key itself, and the neighbour to the right of this node
at every level (`mRhs`, one entry per level; `mRhs.length` is the height). -/
structure node (α : Type) where
  mKey : α
  mRhs : List (Option Nat)
deriving DecidableEq

/-- The skiplist container: comparator instance, head sentinel's forward
pointer vector, and the heap of nodes (arena plus deallocation record). -/
structure skiplist (α : Type) where
  mCompare : α → α → Bool
  mHead : List (Option Nat)
  arena : List (node α)
  freed : List Nat

/-- skiplist(compare): builds the head sentinel with MAX_HEIGHT null forward
references over an empty heap. -/
def emptySkiplist {α : Type} (compare : α → α → Bool) : skiplist α :=
  ⟨compare, List.replicate MAX_HEIGHT none, [], []⟩

/-- Dereference an arena index (out-of-range reads yield a dummy node with no
levels; this never happens on the states the code actually visits). -/
def skiplist.getNode {α : Type} [Inhabited α] (s : skiplist α) (i : Nat) : node α :=
  s.arena.getD i ⟨default, []⟩

/-- The key stored at arena index `i`. -/
def skiplist.keyOf {α : Type} [Inhabited α] (s : skiplist α) (i : Nat) : α :=
  (s.getNode i).mKey

/-- The height of the node at arena index `i` (its `mRhs.size()`). -/
def skiplist.heightOf {α : Type} [Inhabited α] (s : skiplist α) (i : Nat) : Nat :=
  (s.getNode i).mRhs.length

/-- `(arena node i)->mRhs[l]`: the level-`l` forward pointer of node `i`. -/
def nodeNext {α : Type} [Inhabited α] (arena : List (node α)) (l i : Nat) : Option Nat :=
  (arena.getD i ⟨default, []⟩).mRhs.getD l none

/-- `n->mRhs[l]` where `n` is the head (`none`) or the node `some i`. -/
def skiplist.nextOf {α : Type} [Inhabited α] (s : skiplist α) (l : Nat) :
    Option Nat → Option Nat
  | none => s.mHead.getD l none
  | some i => nodeNext s.arena l i

/-- `tgt->mRhs[l] = v` where `tgt` is the head (`none`) or a node (`some i`). -/
def skiplist.setPtr {α : Type} [Inhabited α] (s : skiplist α) (l : Nat)
    (tgt : Option Nat) (v : Option Nat) : skiplist α :=
  match tgt with
  | none => { s with mHead := s.mHead.set l v }
  | some i =>
      { s with arena := s.arena.set i { s.getNode i with mRhs := (s.getNode i).mRhs.set l v } }

/-- The height loop of skiplist::insert:
`size_t height = 1; while (height < MAX_HEIGHT && rand() % 2) height++;`
with the stream of `rand() % 2` outcomes made explicit. -/
def chooseHeightAux : Nat → List Bool → Nat
  | h, [] => h
  | h, b :: rest => if h < MAX_HEIGHT then (if b then chooseHeightAux (h + 1) rest else h) else h

/-- Height selected by insert from a sequence of coin-flip outcomes. -/
def chooseHeight (flips : List Bool) : Nat := chooseHeightAux 1 flips

/-- The inner loop of discoverLinksToUpdate at one level (index `l`), walking
as far right as possible while the neighbour's key precedes `key`:
`while (n->mRhs[level-1] && mCompare(n->mRhs[level-1]->mKey, key)) n = n->mRhs[level-1];`
`n` is the current position, `none` meaning the head sentinel. -/
def skiplist.walkLevel {α : Type} [Inhabited α] (s : skiplist α) (key : α) (l : Nat) :
    Option Nat → Nat → Option Nat
  | n, 0 => n
  | n, fuel + 1 =>
      match s.nextOf l n with
      | none => n
      | some v =>
          if s.mCompare (s.getNode v).mKey key then s.walkLevel key l (some v) fuel else n

/-- The level loop of skiplist::discoverLinksToUpdate, from level index
`levels - 1` down to `0`, recording the final position of each level's walk
(the buffer entry `mLhs[level-1]`) without resetting the position between
levels.  Result index `l` holds the entry for level index `l`. -/
def skiplist.discoverAux {α : Type} [Inhabited α] (s : skiplist α) (key : α) :
    Option Nat → Nat → List (Option Nat)
  | _, 0 => []
  | n, l + 1 =>
      let m := s.walkLevel key l n (s.arena.length + 1)
      s.discoverAux key m l ++ [m]

/-- skiplist::discoverLinksToUpdate(key, height): fills the predecessor buffer
for level indices `0 .. height-1`, walking from the head downwards. -/
def skiplist.discoverLinksToUpdate {α : Type} [Inhabited α] (s : skiplist α)
    (key : α) (height : Nat) : List (Option Nat) :=
  s.discoverAux key none height

/-- The splice loop of skiplist::insert, from level `height` down to `1`
(level index `l` in the iteration handling `l + 1`):
`newnode->mRhs[level-1] = lhs[level-1]->mRhs[level-1];`
`lhs[level-1]->mRhs[level-1] = newnode;`
reading the current state at each step, exactly as the source does. -/
def spliceLoop {α : Type} [Inhabited α] :
    skiplist α → List (Option Nat) → Nat → Nat → skiplist α
  | s, _, _, 0 => s
  | s, lhs, newId, l + 1 =>
      let w := s.nextOf l (lhs.getD l none)
      let s1 := s.setPtr l (some newId) w
      let s2 := s1.setPtr l (lhs.getD l none) (some newId)
      spliceLoop s2 lhs newId l

/-- `mNodeAllocator.allocate(1)` + `construct(newnode, key, height)`: a fresh
arena slot holding the key and `height` null forward pointers. -/
def skiplist.allocNode {α : Type} [Inhabited α] (s : skiplist α) (key : α)
    (height : Nat) : skiplist α :=
  { s with arena := s.arena ++ [⟨key, List.replicate height none⟩] }

/-- skiplist::insert with the height already chosen: discover the splice
points, allocate the node (its `mRhs(height)` vector starts all-null), splice
it in, and return the new node's index alongside the new state. -/
def skiplist.insertH {α : Type} [Inhabited α] (s : skiplist α) (key : α)
    (height : Nat) : skiplist α × Nat :=
  let lhs := s.discoverLinksToUpdate key height
  let newId := s.arena.length
  (spliceLoop (s.allocNode key height) lhs newId height, newId)

/-- skiplist::insert(key): choose a random height from the coin flips, splice,
and return (state, new node, success flag) — the flag is the literal `true` of
`std::make_pair(iterator(this, newnode), true)`. -/
def skiplist.insert {α : Type} [Inhabited α] (s : skiplist α) (key : α)
    (flips : List Bool) : skiplist α × Nat × Bool :=
  let r := s.insertH key (chooseHeight flips)
  (r.1, r.2, true)

/-- The unlink loop of skiplist::erase, from the node's height down to `1`:
`lhs[level-1]->mRhs[level-1] = position.mNode->mRhs[level-1];`
(the source's `if (!lhs[level-1]) continue;` is dead code: discovery has just
filled every entry up to this height with head-or-node, never null). -/
def eraseLoop {α : Type} [Inhabited α] :
    skiplist α → List (Option Nat) → Nat → Nat → skiplist α
  | s, _, _, 0 => s
  | s, lhs, idx, l + 1 =>
      let w := (s.getNode idx).mRhs.getD l none
      let s1 := s.setPtr l (lhs.getD l none) w
      eraseLoop s1 lhs idx l

/-- skiplist::erase(position): rediscover the links up to the node's own
height using the node's key, unlink level by level, capture the node's
level-0 successor as the returned iterator, and deallocate the node. -/
def skiplist.erase {α : Type} [Inhabited α] (s : skiplist α) (idx : Nat) :
    skiplist α × Option Nat :=
  let key := (s.getNode idx).mKey
  let h := (s.getNode idx).mRhs.length
  let lhs := s.discoverLinksToUpdate key h
  let s1 := eraseLoop s lhs idx h
  let nxt := (s1.getNode idx).mRhs.getD 0 none
  ({ s1 with freed := idx :: s1.freed }, nxt)

/-- Follow level-`l` pointers starting from pointer `p`, collecting the nodes
visited, with fuel bounding the number of steps. -/
def pathFrom {α : Type} [Inhabited α] (arena : List (node α)) (l : Nat) :
    Option Nat → Nat → List Nat
  | _, 0 => []
  | none, _ => []
  | some i, fuel + 1 => i :: pathFrom arena l (nodeNext arena l i) fuel

/-- The chain of nodes reachable from the head at level index `l`. -/
def skiplist.chainAt {α : Type} [Inhabited α] (s : skiplist α) (l : Nat) : List Nat :=
  pathFrom s.arena l (s.mHead.getD l none) (s.arena.length + 1)

/-- The level-0 forward traversal from begin() to end(), as node indices. -/
def skiplist.traverse {α : Type} [Inhabited α] (s : skiplist α) : List Nat :=
  s.chainAt 0

/-- The sequence of keys yielded by the forward traversal. -/
def skiplist.keysList {α : Type} [Inhabited α] (s : skiplist α) : List α :=
  s.traverse.map s.keyOf

/-- skiplist::size(): counts the level-0 hops from the head. -/
def skiplist.size {α : Type} [Inhabited α] (s : skiplist α) : Nat :=
  s.traverse.length

/-- skiplist::empty(): `nullptr == mHead.mRhs[0]`. -/
def skiplist.isEmpty {α : Type} (s : skiplist α) : Bool :=
  s.mHead.getD 0 none == none

/-- One level of skiplist::find's loop: walk across while the neighbour's key
strictly precedes `key`, stop (drop down) when `key` strictly precedes the
neighbour, and return the neighbour (`Sum.inr`) when neither is less. -/
def skiplist.findLevel {α : Type} [Inhabited α] (s : skiplist α) (key : α) (l : Nat) :
    Option Nat → Nat → Option Nat ⊕ Nat
  | n, 0 => Sum.inl n
  | n, fuel + 1 =>
      match s.nextOf l n with
      | none => Sum.inl n
      | some v =>
          if s.mCompare key (s.getNode v).mKey then Sum.inl n
          else if s.mCompare (s.getNode v).mKey key then s.findLevel key l (some v) fuel
          else Sum.inr v

/-- The level descent of skiplist::find, from level index `levels - 1` down to
`0`, returning the comparator-equal node found, else `none` after level 0. -/
def skiplist.findDown {α : Type} [Inhabited α] (s : skiplist α) (key : α) :
    Option Nat → Nat → Option Nat
  | _, 0 => none
  | n, l + 1 =>
      match s.findLevel key l n (s.arena.length + 1) with
      | Sum.inr v => some v
      | Sum.inl m => s.findDown key m l

/-- skiplist::find(key): inspect all `mHead.mRhs.size()` levels top-down;
`some i` models an iterator at node `i`, `none` the end sentinel iterator. -/
def skiplist.find {α : Type} [Inhabited α] (s : skiplist α) (key : α) : Option Nat :=
  s.findDown key none s.mHead.length

/-- skiplist::swap(other): `std::swap(mHead.mRhs, other.mHead.mRhs)` — the two
head pointer vectors are exchanged, transplanting each whole node network to
the other container (the arena and deallocation record follow their nodes;
comparator and allocator members stay put, exactly as in the source). -/
def skiplist.swap {α : Type} (a b : skiplist α) : skiplist α × skiplist α :=
  ({ a with mHead := b.mHead, arena := b.arena, freed := b.freed },
   { b with mHead := a.mHead, arena := a.arena, freed := a.freed })

/-- skiplist::key_comp(): returns the comparison object. -/
def skiplist.key_comp {α : Type} (s : skiplist α) : α → α → Bool :=
  s.mCompare

/-- skiplist::iterator: the owning skiplist (`mSkiplist`, a pointer that is
null only for a default-constructed iterator — container identities are
modelled as `some cid`) and the node under iteration (`mNode`, null = end). -/
structure iterator where
  mSkiplist : Option Nat
  mNode : Option Nat
deriving DecidableEq

/-- `iterator()`: the default constructor sets both pointers to nullptr. -/
def defaultIterator : iterator := ⟨none, none⟩

/-- `iterator(const skiplist*, node_type*)`: every iterator a container hands
out carries that container's own (non-null) identity. -/
def mkIter (cid : Nat) (p : Option Nat) : iterator := ⟨some cid, p⟩

/-- skiplist::end(): `iterator(this, nullptr)`. -/
def endIter (cid : Nat) : iterator := mkIter cid none

/-- iterator::operator==: equal only when referring to the same list in
memory and the same node. -/
def iterEq (a b : iterator) : Bool :=
  a.mSkiplist == b.mSkiplist && a.mNode == b.mNode

/-- The copy constructor `skiplist(const skiplist& other)`: the member-init
list builds a fresh head only, so `mCompare` is default-constructed — the
copy runs with whatever comparator `compare_type()` yields (`dflt` here),
not with the source's instance — and each key of the source's traversal is
re-inserted in order with fresh coin flips. -/
def insertAll {α : Type} [Inhabited α] :
    skiplist α → List α → List (List Bool) → skiplist α
  | s, [], _ => s
  | s, k :: ks, fss => insertAll (s.insert k (fss.headD [])).1 ks fss.tail

/-- skiplist(const skiplist& other), with `dflt` the comparator the copy's
`compare_type()` default construction produces. -/
def copyCtor {α : Type} [Inhabited α] (dflt : α → α → Bool) (src : skiplist α)
    (fss : List (List Bool)) : skiplist α :=
  insertAll (emptySkiplist dflt) src.keysList fss

/-- A live node: allocated and not yet deallocated.  An iterator of this
container is valid and non-end exactly when its node is live. -/
def skiplist.liveNode {α : Type} (s : skiplist α) (i : Nat) : Prop :=
  i < s.arena.length ∧ i ∉ s.freed

instance {α : Type} (s : skiplist α) (i : Nat) : Decidable (s.liveNode i) := by
  unfold skiplist.liveNode; infer_instance

/-- States reachable from an empty container by insert and erase operations,
each erase given a valid (live), non-end iterator of the container. -/
inductive Reach {α : Type} [Inhabited α] : skiplist α → Prop
  | empty (compare : α → α → Bool) : Reach (emptySkiplist compare)
  | insert {s : skiplist α} (key : α) (flips : List Bool) :
      Reach s → Reach (s.insert key flips).1
  | erase {s : skiplist α} (idx : Nat) :
      Reach s → s.liveNode idx → Reach (s.erase idx).1

/-! Concrete comparator instances used by scenarios and counterexamples. -/

/-- Ascending less-than on naturals (std::less). -/
def ltNat : Nat → Nat → Bool := fun a b => a.blt b

/-- Descending comparator instance on naturals (std::greater). -/
def gtNat : Nat → Nat → Bool := fun a b => b.blt a

/-- A comparator that orders naturals by their decade only, so distinct keys
such as 10 and 11 are comparator-equal (a strict weak ordering that is not a
total order on values). -/
def ltDecade : Nat → Nat → Bool := fun a b => (a / 10).blt (b / 10)

/-! Bounds on the randomly chosen height. -/

theorem chooseHeightAux_le :
    ∀ (fl : List Bool) (h : Nat), h ≤ MAX_HEIGHT → chooseHeightAux h fl ≤ MAX_HEIGHT
  | [], _, hh => hh
  | b :: rest, h, hh => by
      unfold chooseHeightAux
      by_cases hlt : h < MAX_HEIGHT
      · simp only [hlt, if_true]
        cases b
        · simpa using hh
        · simpa using chooseHeightAux_le rest (h + 1) (by omega)
      · simpa [hlt] using hh

theorem chooseHeightAux_ge :
    ∀ (fl : List Bool) (h : Nat), h ≤ chooseHeightAux h fl
  | [], _ => Nat.le_refl _
  | b :: rest, h => by
      unfold chooseHeightAux
      by_cases hlt : h < MAX_HEIGHT
      · simp only [hlt, if_true]
        cases b
        · simp
        · simpa using Nat.le_trans (Nat.le_succ h) (chooseHeightAux_ge rest (h + 1))
      · simp [hlt]

theorem chooseHeight_bounds (fl : List Bool) :
    1 ≤ chooseHeight fl ∧ chooseHeight fl ≤ MAX_HEIGHT :=
  ⟨chooseHeightAux_ge fl 1, chooseHeightAux_le fl 1 (by decide)⟩

/-! Claim scenarios and counterexamples: concrete states built by the
operations, with all erases applied to valid (live), non-end iterators. -/

/-- Two comparator-equal keys, both of height 1; the later insert (node 1)
sits first on the level-0 chain, so node 0 is second in traversal order. -/
def dupState : skiplist Nat := (((emptySkiplist ltNat).insert 2 []).1.insert 2 []).1

/-- `dupState` after erasing the valid, non-end iterator at node 0.  The
discovery in erase stops at the head (node 1 compares equal, not less), so
the relink bypasses node 1 as well: the traversal loses both nodes and the
still-live node 1 leaks. -/
def dupErased : skiplist Nat := (dupState.erase 0).1

/-- Two comparator-equal keys where the first-in-chain node 1 has height 2;
erasing node 0 (second in chain, height 1) relinks level 0 from the head
straight to node 0's successor, orphaning node 1 from level 0 while it stays
linked at level 1. -/
def corruptState : skiplist Nat :=
  ((((emptySkiplist ltNat).insert 2 []).1.insert 2 [true]).1.erase 0).1

/-- `corruptState` after inserting key 5: the new node is reachable, but the
orphaned node 1 still sits on level 1 and now poisons later discoveries. -/
def corrupt2 : skiplist Nat := (corruptState.insert 5 []).1

/-- A two-element source container built with the descending comparator
instance: forward traversal is 2, 1. -/
def descSrc : skiplist Nat := (((emptySkiplist gtNat).insert 1 []).1.insert 2 []).1

/-- A two-element source with decade comparator: 10 and 11 are
comparator-equal, traversal is 10, 11. -/
def decadeSrc : skiplist Nat := (((emptySkiplist ltDecade).insert 11 []).1.insert 10 []).1

/-! C6, C9, C10: swap and iterator claims. -/

/-- C6: for containers A and B of the same type, after swap(A, B) traversing
A yields exactly B's pre-swap key sequence and vice versa, and the sizes are
exchanged accordingly. -/
theorem C6_swap_exchange {α : Type} [Inhabited α] (A B : skiplist α) :
    (A.swap B).1.keysList = B.keysList ∧ (A.swap B).2.keysList = A.keysList ∧
    (A.swap B).1.size = B.size ∧ (A.swap B).2.size = A.size :=
  ⟨rfl, rfl, rfl, rfl⟩

/-- C9: swap exchanges only the head forward-reference vectors; each
container's key_comp() still returns its own original comparator instance
afterwards — the comparators are not exchanged. -/
theorem C9_swap_keeps_comparators {α : Type} (A B : skiplist α) :
    (A.swap B).1.key_comp = A.key_comp ∧ (A.swap B).2.key_comp = B.key_comp :=
  ⟨rfl, rfl⟩

/-- C10: a default-constructed iterator (null owning-container pointer) is
never operator==-equal to any container's end() iterator nor to any iterator
a container hands out (all of which carry the container's non-null identity),
in either orientation. -/
theorem C10_default_iterator_unequal (cid : Nat) (p : Option Nat) :
    iterEq defaultIterator (endIter cid) = false ∧
    iterEq (endIter cid) defaultIterator = false ∧
    iterEq defaultIterator (mkIter cid p) = false ∧
    iterEq (mkIter cid p) defaultIterator = false := by
  simp [iterEq, defaultIterator, endIter, mkIter]

/-! C7: the concrete insert 1, 3, 2 / find / erase scenario, for every
sequence of coin-flip outcomes. -/

/-- The state reached by inserting keys 1, 3, 2 (heights h1, h2, h3) into an
empty ascending container. -/
def c7state (h1 h2 h3 : Nat) : skiplist Nat :=
  ((((emptySkiplist ltNat).insertH 1 h1).1.insertH 3 h2).1.insertH 2 h3).1

/-! Counterexample theorems: each refutes its claim as stated, at a fully
concrete input. -/

/-- C2 fails as stated: in `dupErased`, key 2 was inserted (as node 1) and
never erased (only the iterator at node 0 was passed to erase) and node 1 is
still live, yet find(2) returns the end iterator. -/
theorem C2_counterexample :
    dupState.traverse = [1, 0] ∧ dupState.keyOf 1 = 2 ∧
    dupErased.liveNode 1 ∧ dupErased.keyOf 1 = 2 ∧ dupErased.freed = [0] ∧
    dupErased.find 2 = none := by
  decide

/-- C3 fails as stated: erasing the valid, non-end iterator at node 0 of
`dupState` (traversal 1, 0; a comparator-equal node 1 precedes it) must leave
the traversal [1]; instead both nodes vanish from the traversal. -/
theorem C3_counterexample :
    dupState.traverse = [1, 0] ∧ dupState.liveNode 0 ∧
    (dupState.erase 0).1.traverse = [] ∧ (dupState.erase 0).1.traverse ≠ [1] := by
  decide

/-- C4 fails as stated: in the reachable state `corrupt2` (reached through
inserts and one erase of a valid, non-end iterator), inserting key 3 splices
the new node after the orphaned node 1, so the element count stays 1 instead
of growing by one. -/
theorem C4_counterexample :
    corrupt2.size = 1 ∧ ((corrupt2.insert 3 [true]).1.size = 1) ∧
    ¬ (corrupt2.insert 3 [true]).1.size = corrupt2.size + 1 := by
  decide

/-- C5 fails as stated, in two independent ways.  First: the copy constructor
default-constructs its comparator instead of copying the source's instance,
so copying a container built with the descending instance while the
default-constructed comparator is ascending reverses the traversal (this is
the C++ behaviour for any stateful comparator type whose default differs from
the source's instance).  Second: even with the identical comparator, inserts
place a new node before comparator-equal keys, so re-inserting the source's
keys in order reverses every run of comparator-equal keys. -/
theorem C5_counterexample :
    (descSrc.keysList = [2, 1] ∧ (copyCtor ltNat descSrc []).keysList = [1, 2] ∧
      (copyCtor ltNat descSrc []).keysList ≠ descSrc.keysList) ∧
    (decadeSrc.keysList = [10, 11] ∧ (copyCtor ltDecade decadeSrc []).keysList = [11, 10] ∧
      (copyCtor ltDecade decadeSrc []).keysList ≠ decadeSrc.keysList) := by
  decide

/-- C8 fails as stated: in the reachable state `corruptState` (all erases
given valid, non-end iterators), node 1 is present on the level-1 chain but
absent from the level-0 chain, so the level-(L+1) ⊆ level-L monotone
membership is violated. -/
theorem C8_counterexample :
    corruptState.chainAt 1 = [1] ∧ corruptState.chainAt 0 = [] ∧
    1 ∈ corruptState.chainAt 1 ∧ 1 ∉ corruptState.chainAt 0 := by
  decide

/-! Strict weak orderings, Bool-valued as the C++ comparator contract
requires: irreflexive, transitive, with transitive incomparability. -/

/-- `lt` is a strict weak ordering. -/
structure IsSWO {α : Type} (lt : α → α → Bool) : Prop where
  irrefl : ∀ a, lt a a = false
  lt_trans : ∀ a b c, lt a b = true → lt b c = true → lt a c = true
  equiv_trans : ∀ a b c, lt a b = false → lt b a = false → lt b c = false → lt c b = false →
    lt a c = false

theorem IsSWO.asymm {α : Type} {lt : α → α → Bool} (h : IsSWO lt) (a b : α)
    (hab : lt a b = true) : lt b a = false := by
  cases hba : lt b a
  · rfl
  · simpa [h.irrefl a] using h.lt_trans a b a hab hba

/-- In a strict weak ordering, a < b together with ¬(c < b) gives a < c. -/
theorem IsSWO.lt_of_lt_of_nlt {α : Type} {lt : α → α → Bool} (h : IsSWO lt) (a b c : α)
    (hab : lt a b = true) (hcb : lt c b = false) : lt a c = true := by
  cases hac : lt a c
  · exfalso
    cases hca : lt c a
    · cases hbc : lt b c
      · have := h.equiv_trans a c b hac hca hcb hbc
        simp [hab] at this
      · have := h.lt_trans a b c hab hbc
        simp [hac] at this
    · have := h.lt_trans c a b hca hab
      simp [hcb] at this
  · rfl

/-- In a strict weak ordering, a ≈ b and b < c give a < c. -/
theorem IsSWO.lt_of_equiv_of_lt {α : Type} {lt : α → α → Bool} (h : IsSWO lt) (a b c : α)
    (hab : lt a b = false) (hba : lt b a = false) (hbc : lt b c = true) : lt a c = true := by
  cases hac : lt a c
  · exfalso
    cases hca : lt c a
    · have := h.equiv_trans b a c hba hab hac hca
      simp [hbc] at this
    · have hcb := h.lt_of_lt_of_nlt c a b hca hba
      have := h.lt_trans b c b hbc hcb
      simp [h.irrefl b] at this
  · rfl

/-- Transitivity of ¬(· < ·): ¬(b < a) and ¬(c < b) give ¬(c < a). -/
theorem IsSWO.nlt_trans {α : Type} {lt : α → α → Bool} (h : IsSWO lt) (a b c : α)
    (hba : lt b a = false) (hcb : lt c b = false) : lt c a = false := by
  cases hca : lt c a
  · rfl
  · have := h.lt_of_lt_of_nlt c a b hca hba
    simp [hcb] at this

/-- The ordering every forward pointer of the structure respects: the source
key strictly precedes the target key, or the keys are comparator-equal and
the target was allocated strictly earlier (inserts link a new node in front
of its comparator-equal predecessors). -/
def edgeRel {α : Type} (lt : α → α → Bool) (key : Nat → α) (a b : Nat) : Prop :=
  lt (key a) (key b) = true ∨
    (lt (key a) (key b) = false ∧ lt (key b) (key a) = false ∧ b < a)

theorem edgeRel_trans {α : Type} {lt : α → α → Bool} {key : Nat → α} (h : IsSWO lt)
    {a b c : Nat} (hab : edgeRel lt key a b) (hbc : edgeRel lt key b c) :
    edgeRel lt key a c := by
  rcases hab with hab | ⟨hab1, hab2, hab3⟩
  · rcases hbc with hbc | ⟨hbc1, hbc2, hbc3⟩
    · exact Or.inl (h.lt_trans _ _ _ hab hbc)
    · exact Or.inl (h.lt_of_lt_of_nlt _ _ _ hab hbc2)
  · rcases hbc with hbc | ⟨hbc1, hbc2, hbc3⟩
    · exact Or.inl (h.lt_of_equiv_of_lt _ _ _ hab1 hab2 hbc)
    · exact Or.inr ⟨h.equiv_trans _ _ _ hab1 hab2 hbc1 hbc2,
        h.equiv_trans _ _ _ hbc2 hbc1 hab2 hab1, Nat.lt_trans hbc3 hab3⟩

theorem edgeRel_irrefl {α : Type} {lt : α → α → Bool} {key : Nat → α} (h : IsSWO lt)
    (a : Nat) : ¬ edgeRel lt key a a := by
  rintro (hlt | ⟨-, -, hlt⟩)
  · simp [h.irrefl] at hlt
  · exact Nat.lt_irrefl a hlt

/-! Pointer paths.  `IsSeg arena l p xs q`: starting at pointer `p` and
following level-`l` forward pointers consumes exactly the nodes `xs` and
leaves the pointer `q`; `IsPath` is a segment ending at null. -/

inductive IsSeg {α : Type} [Inhabited α] (arena : List (node α)) (l : Nat) :
    Option Nat → List Nat → Option Nat → Prop
  | nil (p : Option Nat) : IsSeg arena l p [] p
  | cons {i : Nat} {xs : List Nat} {q : Option Nat} :
      IsSeg arena l (nodeNext arena l i) xs q → IsSeg arena l (some i) (i :: xs) q

/-- A maximal pointer path: a segment that ends at the null pointer. -/
def IsPath {α : Type} [Inhabited α] (arena : List (node α)) (l : Nat)
    (p : Option Nat) (xs : List Nat) : Prop :=
  IsSeg arena l p xs none

theorem IsSeg.nil_inv {α : Type} [Inhabited α] {arena : List (node α)} {l : Nat}
    {p q : Option Nat} (h : IsSeg arena l p [] q) : p = q := by
  cases h; rfl

theorem IsSeg.cons_inv {α : Type} [Inhabited α] {arena : List (node α)} {l : Nat}
    {p q : Option Nat} {x : Nat} {xs : List Nat} (h : IsSeg arena l p (x :: xs) q) :
    p = some x ∧ IsSeg arena l (nodeNext arena l x) xs q := by
  cases h; exact ⟨rfl, by assumption⟩

theorem IsSeg.append {α : Type} [Inhabited α] {arena : List (node α)} {l : Nat}
    {p q r : Option Nat} {xs ys : List Nat} (h1 : IsSeg arena l p xs q)
    (h2 : IsSeg arena l q ys r) : IsSeg arena l p (xs ++ ys) r := by
  induction h1 with
  | nil => simpa using h2
  | cons h ih => exact IsSeg.cons (ih h2)

theorem IsSeg.append_decomp {α : Type} [Inhabited α] {arena : List (node α)} {l : Nat} :
    ∀ {xs ys : List Nat} {p r : Option Nat}, IsSeg arena l p (xs ++ ys) r →
      ∃ q, IsSeg arena l p xs q ∧ IsSeg arena l q ys r
  | [], ys, p, r, h => ⟨p, IsSeg.nil p, by simpa using h⟩
  | x :: xs, ys, p, r, h => by
      obtain ⟨hp, hrest⟩ := IsSeg.cons_inv (by simpa using h)
      obtain ⟨q, h1, h2⟩ := IsSeg.append_decomp hrest
      exact ⟨q, hp ▸ IsSeg.cons h1, h2⟩

/-- The pointer left after consuming a nonempty segment is the last listed
node's forward pointer. -/
theorem IsSeg.last_next {α : Type} [Inhabited α] {arena : List (node α)} {l : Nat}
    {p q : Option Nat} {xs : List Nat} {x : Nat} (h : IsSeg arena l p (xs ++ [x]) q) :
    q = nodeNext arena l x := by
  obtain ⟨m, h1, h2⟩ := h.append_decomp
  obtain ⟨hm, hrest⟩ := h2.cons_inv
  exact (hrest.nil_inv).symm

theorem IsSeg.deterministic {α : Type} [Inhabited α] {arena : List (node α)} {l : Nat} :
    ∀ {xs ys : List Nat} {p : Option Nat}, IsPath arena l p xs → IsPath arena l p ys →
      xs = ys
  | [], ys, p, h1, h2 => by
      cases h1
      cases h2
      rfl
  | x :: xs, ys, p, h1, h2 => by
      obtain ⟨hp, hrest⟩ := IsSeg.cons_inv h1
      subst hp
      cases ys with
      | nil => cases h2.nil_inv
      | cons y ys =>
          obtain ⟨hy, hrest2⟩ := IsSeg.cons_inv h2
          cases hy
          exact congrArg _ (IsSeg.deterministic hrest hrest2)

/-- `pathFrom` either follows an entire maximal path or runs out of fuel. -/
theorem pathFrom_spec {α : Type} [Inhabited α] (arena : List (node α)) (l : Nat) :
    ∀ (fuel : Nat) (p : Option Nat),
      IsPath arena l p (pathFrom arena l p fuel) ∨ (pathFrom arena l p fuel).length = fuel
  | 0, p => Or.inr (by cases p <;> simp [pathFrom])
  | fuel + 1, none => Or.inl (IsSeg.nil none)
  | fuel + 1, some i => by
      rcases pathFrom_spec arena l fuel (nodeNext arena l i) with h | h
      · exact Or.inl (IsSeg.cons h)
      · exact Or.inr (by simp [pathFrom, h])

/-- With enough fuel, `pathFrom` computes exactly the maximal path. -/
theorem pathFrom_of_isPath {α : Type} [Inhabited α] {arena : List (node α)} {l : Nat} :
    ∀ {xs : List Nat} {p : Option Nat}, IsPath arena l p xs →
      ∀ fuel, xs.length < fuel → pathFrom arena l p fuel = xs
  | [], p, h, fuel, hf => by
      cases h
      cases fuel with
      | zero => omega
      | succ f => rfl
  | x :: xs, p, h, fuel, hf => by
      obtain ⟨hp, hrest⟩ := IsSeg.cons_inv h
      subst hp
      cases fuel with
      | zero => omega
      | succ f =>
          simpa [pathFrom] using pathFrom_of_isPath hrest f (by simpa using hf)

/-- A duplicate-free list of naturals all below `n` has at most `n` members. -/
theorem length_le_of_nodup_bounded {xs : List Nat} {n : Nat} (hnd : xs.Nodup)
    (hb : ∀ x ∈ xs, x < n) : xs.length ≤ n := by
  classical
  have h1 : xs.toFinset.card = xs.length := List.toFinset_card_of_nodup hnd
  have h2 : xs.toFinset ⊆ Finset.range n := by
    intro x hx
    exact Finset.mem_range.mpr (hb x (List.mem_toFinset.mp hx))
  have := Finset.card_le_card h2
  rw [h1, Finset.card_range] at this
  exact this

/-! Elementary list-read lemmas used to reason about pointer writes. -/

theorem getD_set_self {γ : Type} (xs : List γ) (i : Nat) (v d : γ) (h : i < xs.length) :
    (xs.set i v).getD i d = v := by
  simp [List.getD_eq_getElem?_getD, List.getElem?_set_self h]

theorem getD_set_ne {γ : Type} (xs : List γ) {i j : Nat} (v d : γ) (h : i ≠ j) :
    (xs.set i v).getD j d = xs.getD j d := by
  simp [List.getD_eq_getElem?_getD, List.getElem?_set_ne h]

theorem getD_append_left {γ : Type} {xs ys : List γ} {i : Nat} (d : γ) (h : i < xs.length) :
    (xs ++ ys).getD i d = xs.getD i d := by
  simp [List.getD_eq_getElem?_getD, List.getElem?_append_left h]

theorem getD_concat_self {γ : Type} (xs : List γ) (x d : γ) :
    (xs ++ [x]).getD xs.length d = x := by
  simp [List.getD_eq_getElem?_getD, List.getElem?_concat_length]

theorem getD_replicate_none {γ : Type} (n m : Nat) :
    (List.replicate n (none : Option γ)).getD m none = none := by
  simp [List.getD_eq_getElem?_getD, List.getElem?_replicate]
  split <;> rfl

/-! Validity of pointers and the global edge invariant. -/

/-- `p` is a valid level-`l` pointer: null, or aimed at an allocated node that
participates in level `l`. -/
def skiplist.ptrOk {α : Type} [Inhabited α] (s : skiplist α) (l : Nat) (p : Option Nat) : Prop :=
  ∀ j, p = some j → j < s.arena.length ∧ l < s.heightOf j

/-- The structural invariant every reachable heap satisfies, even after the
erase-with-duplicates corruption: all head and node forward pointers are
valid for their level, and every node edge respects `edgeRel` (source key
strictly precedes target key, or the keys are comparator-equal and the
target is older). -/
structure INV {α : Type} [Inhabited α] (s : skiplist α) : Prop where
  head_tgt : ∀ l, s.ptrOk l (s.mHead.getD l none)
  edge_tgt : ∀ i l, i < s.arena.length → s.ptrOk l (nodeNext s.arena l i)
  edge_rel : ∀ i l j, i < s.arena.length → nodeNext s.arena l i = some j →
      edgeRel s.mCompare s.keyOf i j

theorem skiplist.ptrOk.mono {α : Type} [Inhabited α] {s : skiplist α} {l m : Nat}
    {p : Option Nat} (h : s.ptrOk l p) (hm : m ≤ l) : s.ptrOk m p := by
  intro j hj
  obtain ⟨h1, h2⟩ := h j hj
  exact ⟨h1, Nat.lt_of_le_of_lt hm h2⟩

theorem nodeNext_oob {α : Type} [Inhabited α] {arena : List (node α)} {l i : Nat}
    (h : ¬ i < arena.length) : nodeNext arena l i = none := by
  unfold nodeNext
  have hd : arena.getD i ⟨default, []⟩ = ⟨default, []⟩ := by
    rw [List.getD_eq_getElem?_getD, List.getElem?_eq_none (by omega)]
    rfl
  rw [hd]
  rfl

theorem INV.nextOk {α : Type} [Inhabited α] {s : skiplist α} (hinv : INV s) (l : Nat)
    {n : Option Nat} (hn : ∀ i, n = some i → i < s.arena.length) :
    s.ptrOk l (s.nextOf l n) := by
  cases n with
  | none => exact hinv.head_tgt l
  | some i => exact hinv.edge_tgt i l (hn i rfl)

/-! Paths under the invariant: membership bounds, chains, nodup, termination. -/

theorem pathFrom_head {α : Type} [Inhabited α] {arena : List (node α)} {l : Nat} :
    ∀ {fuel : Nat} {p : Option Nat} {y : Nat},
      (pathFrom arena l p fuel).head? = some y → p = some y := by
  intro fuel p y h
  match fuel, p with
  | 0, p => simp [pathFrom] at h
  | fuel + 1, none => simp [pathFrom] at h
  | fuel + 1, some i => simp [pathFrom] at h; simp [h]

theorem pathFrom_mem_ok {α : Type} [Inhabited α] {s : skiplist α} (hinv : INV s) (l : Nat) :
    ∀ (fuel : Nat) (p : Option Nat), s.ptrOk l p →
      ∀ x ∈ pathFrom s.arena l p fuel, x < s.arena.length ∧ l < s.heightOf x
  | 0, p, hok => by simp [pathFrom]
  | fuel + 1, none, hok => by simp [pathFrom]
  | fuel + 1, some i, hok => by
      intro x hx
      rcases List.mem_cons.mp (by simpa [pathFrom] using hx) with hx | hx
      · exact hx ▸ hok i rfl
      · exact pathFrom_mem_ok hinv l fuel (nodeNext s.arena l i)
          (hinv.edge_tgt i l (hok i rfl).1) x hx

theorem pathFrom_chain {α : Type} [Inhabited α] {s : skiplist α} (hinv : INV s) (l : Nat) :
    ∀ (fuel : Nat) (p : Option Nat), s.ptrOk l p →
      List.Chain' (edgeRel s.mCompare s.keyOf) (pathFrom s.arena l p fuel)
  | 0, p, hok => by simp [pathFrom]
  | fuel + 1, none, hok => by simp [pathFrom]
  | fuel + 1, some i, hok => by
      have hlen : i < s.arena.length := (hok i rfl).1
      have hrest := pathFrom_chain hinv l fuel (nodeNext s.arena l i) (hinv.edge_tgt i l hlen)
      rw [show pathFrom s.arena l (some i) (fuel + 1)
            = i :: pathFrom s.arena l (nodeNext s.arena l i) fuel from rfl]
      rw [List.chain'_cons']
      refine ⟨?_, hrest⟩
      intro y hy
      exact hinv.edge_rel i l y hlen (pathFrom_head hy)

theorem pathFrom_nodup {α : Type} [Inhabited α] {s : skiplist α} (hinv : INV s)
    (hswo : IsSWO s.mCompare) (l : Nat) (fuel : Nat) (p : Option Nat) (hok : s.ptrOk l p) :
    (pathFrom s.arena l p fuel).Nodup := by
  haveI : IsTrans Nat (edgeRel s.mCompare s.keyOf) :=
    ⟨fun a b c hab hbc => edgeRel_trans hswo hab hbc⟩
  have hpw := (List.chain'_iff_pairwise).mp (pathFrom_chain hinv l fuel p hok)
  exact hpw.imp fun {a b} hr he => absurd (he ▸ hr) (edgeRel_irrefl hswo b)

theorem pathFrom_length_le {α : Type} [Inhabited α] {s : skiplist α} (hinv : INV s)
    (hswo : IsSWO s.mCompare) (l : Nat) (fuel : Nat) (p : Option Nat) (hok : s.ptrOk l p) :
    (pathFrom s.arena l p fuel).length ≤ s.arena.length :=
  length_le_of_nodup_bounded (pathFrom_nodup hinv hswo l fuel p hok)
    (fun x hx => (pathFrom_mem_ok hinv l fuel p hok x hx).1)

/-- Under the invariant, every pointer's forward orbit is a finite maximal
path of at most `arena.length` nodes — the loops in the C++ code terminate. -/
theorem exists_isPath {α : Type} [Inhabited α] {s : skiplist α} (hinv : INV s)
    (hswo : IsSWO s.mCompare) (l : Nat) (p : Option Nat) (hok : s.ptrOk l p) :
    ∃ xs, IsPath s.arena l p xs ∧ xs.length ≤ s.arena.length := by
  rcases pathFrom_spec s.arena l (s.arena.length + 1) p with h | h
  · exact ⟨_, h, pathFrom_length_le hinv hswo l _ p hok⟩
  · have := pathFrom_length_le hinv hswo l (s.arena.length + 1) p hok
    omega

/-! The discovery walk: its final position is valid, its key still precedes
the target key, and (with enough fuel, which the invariant guarantees) the
neighbour it stopped at does not precede the target key. -/

theorem walkLevel_ptrOk {α : Type} [Inhabited α] {s : skiplist α} (hinv : INV s)
    (key : α) (l : Nat) :
    ∀ (fuel : Nat) (n : Option Nat), s.ptrOk l n → s.ptrOk l (s.walkLevel key l n fuel)
  | 0, n, hok => hok
  | fuel + 1, n, hok => by
      unfold skiplist.walkLevel
      cases hnx : s.nextOf l n with
      | none => exact hok
      | some v =>
          by_cases hc : s.mCompare (s.getNode v).mKey key = true
          · simp only [hc, if_true]
            refine walkLevel_ptrOk hinv key l fuel (some v) ?_
            intro j hj
            cases hj
            exact hinv.nextOk l (fun i hi => (hok i hi).1) v hnx
          · simp only [Bool.not_eq_true] at hc
            simp only [hc]
            exact hok

theorem walkLevel_keyLt {α : Type} [Inhabited α] (s : skiplist α) (key : α) (l : Nat) :
    ∀ (fuel : Nat) (n : Option Nat),
      (∀ i, n = some i → s.mCompare (s.keyOf i) key = true) →
      ∀ i, s.walkLevel key l n fuel = some i → s.mCompare (s.keyOf i) key = true
  | 0, n, hkey => hkey
  | fuel + 1, n, hkey => by
      unfold skiplist.walkLevel
      cases hnx : s.nextOf l n with
      | none => exact hkey
      | some v =>
          by_cases hc : s.mCompare (s.getNode v).mKey key = true
          · simp only [hc, if_true]
            refine walkLevel_keyLt s key l fuel (some v) ?_
            intro i hi
            cases hi
            exact hc
          · simp only [Bool.not_eq_true] at hc
            simp only [hc]
            exact hkey

theorem walkLevel_stop {α : Type} [Inhabited α] {s : skiplist α} (key : α) (l : Nat) :
    ∀ (xs : List Nat) (fuel : Nat) (n : Option Nat),
      IsPath s.arena l (s.nextOf l n) xs → xs.length < fuel →
      ∀ v, s.nextOf l (s.walkLevel key l n fuel) = some v →
        s.mCompare (s.keyOf v) key = false
  | [], fuel + 1, n, hpath, hlen, v => by
      have hnone : s.nextOf l n = none := hpath.nil_inv
      unfold skiplist.walkLevel
      rw [hnone]
      intro hv
      rw [hnone] at hv
      cases hv
  | x :: xs, fuel + 1, n, hpath, hlen, v => by
      obtain ⟨hpx, hrest⟩ := hpath.cons_inv
      unfold skiplist.walkLevel
      rw [hpx]
      by_cases hc : s.mCompare (s.getNode x).mKey key = true
      · simp only [hc, if_true]
        exact walkLevel_stop key l xs fuel (some x) hrest (by simpa using hlen) v
      · simp only [Bool.not_eq_true] at hc
        simp only [hc]
        rw [if_neg Bool.false_ne_true]
        intro hv
        rw [hpx] at hv
        cases hv
        exact hc

/-- Packaged stop property at the fuel the implementation uses. -/
theorem walkLevel_stopD {α : Type} [Inhabited α] {s : skiplist α} (hinv : INV s)
    (hswo : IsSWO s.mCompare) (key : α) (l : Nat) (n : Option Nat)
    (hn : ∀ i, n = some i → i < s.arena.length) :
    ∀ v, s.nextOf l (s.walkLevel key l n (s.arena.length + 1)) = some v →
      s.mCompare (s.keyOf v) key = false := by
  obtain ⟨xs, hpath, hlen⟩ := exists_isPath hinv hswo l (s.nextOf l n) (hinv.nextOk l hn)
  exact walkLevel_stop key l xs (s.arena.length + 1) n hpath (by omega)

theorem discoverAux_length {α : Type} [Inhabited α] (s : skiplist α) (key : α) :
    ∀ (l : Nat) (n : Option Nat), (s.discoverAux key n l).length = l
  | 0, n => rfl
  | l + 1, n => by
      unfold skiplist.discoverAux
      simp [discoverAux_length s key l]

/-- What discovery guarantees about each buffer entry for level index `m`:
the entry is the head or a live node of sufficient height whose key strictly
precedes the target, and its level-`m` neighbour does not precede the
target. -/
def entryOk {α : Type} [Inhabited α] (s : skiplist α) (key : α) (m : Nat)
    (e : Option Nat) : Prop :=
  s.ptrOk m e ∧ (∀ i, e = some i → s.mCompare (s.keyOf i) key = true) ∧
    (∀ v, s.nextOf m e = some v → s.mCompare (s.keyOf v) key = false)

theorem discoverAux_entries {α : Type} [Inhabited α] {s : skiplist α} (hinv : INV s)
    (hswo : IsSWO s.mCompare) (key : α) :
    ∀ (l : Nat) (n : Option Nat), (∀ m, m < l → s.ptrOk m n) →
      (∀ i, n = some i → s.mCompare (s.keyOf i) key = true) →
      ∀ m, m < l → entryOk s key m ((s.discoverAux key n l).getD m none)
  | 0, n, hok, hkey => by omega
  | l + 1, n, hok, hkey => by
      intro m hm
      unfold skiplist.discoverAux
      have hok_l : s.ptrOk l n := hok l (Nat.lt_succ_self l)
      have hn' := walkLevel_ptrOk hinv key l (s.arena.length + 1) n hok_l
      have hkey' := walkLevel_keyLt s key l (s.arena.length + 1) n
        (fun i hi => hkey i hi)
      have hstop := walkLevel_stopD hinv hswo key l n (fun i hi => (hok_l i hi).1)
      rcases Nat.lt_or_ge m l with hml | hml
      · rw [getD_append_left none (by simp [discoverAux_length s key l]; omega)]
        refine discoverAux_entries hinv hswo key l (s.walkLevel key l n (s.arena.length + 1))
          ?_ ?_ m hml
        · intro m' hm'
          exact hn'.mono (by omega)
        · exact hkey'
      · have hml' : m = l := by omega
        have hcc := getD_concat_self (s.discoverAux key (s.walkLevel key l n (s.arena.length + 1)) l)
          (s.walkLevel key l n (s.arena.length + 1)) none
        rw [discoverAux_length s key l] at hcc
        rw [hml', hcc]
        exact ⟨hn', hkey', hstop⟩

/-- The buffer entries after discoverLinksToUpdate(key, height). -/
theorem discover_entries {α : Type} [Inhabited α] {s : skiplist α} (hinv : INV s)
    (hswo : IsSWO s.mCompare) (key : α) (height : Nat) :
    ∀ m, m < height → entryOk s key m ((s.discoverLinksToUpdate key height).getD m none) := by
  intro m hm
  exact discoverAux_entries hinv hswo key height none
    (fun m' _ => by intro j hj; cases hj) (fun i hi => by cases hi) m hm

/-! Reading a state after a single pointer write. -/

section SetPtr

variable {α : Type} [Inhabited α] (s : skiplist α) (l : Nat) (tgt v : Option Nat)

@[simp] theorem setPtr_mCompare : (s.setPtr l tgt v).mCompare = s.mCompare := by
  cases tgt <;> rfl

@[simp] theorem setPtr_freed : (s.setPtr l tgt v).freed = s.freed := by
  cases tgt <;> rfl

@[simp] theorem setPtr_arena_length : (s.setPtr l tgt v).arena.length = s.arena.length := by
  cases tgt <;> simp [skiplist.setPtr]

theorem getNode_setPtr_head (i : Nat) : (s.setPtr l none v).getNode i = s.getNode i := rfl

theorem getNode_setPtr_other {j i : Nat} (h : j ≠ i) :
    (s.setPtr l (some j) v).getNode i = s.getNode i := by
  show (s.arena.set j _).getD i ⟨default, []⟩ = s.arena.getD i ⟨default, []⟩
  exact getD_set_ne _ _ _ h

theorem getNode_setPtr_self {j : Nat} (h : j < s.arena.length) :
    (s.setPtr l (some j) v).getNode j
      = { s.getNode j with mRhs := (s.getNode j).mRhs.set l v } := by
  show (s.arena.set j _).getD j ⟨default, []⟩ = _
  exact getD_set_self _ _ _ _ h

theorem setPtr_arena_oob {j : Nat} (h : ¬ j < s.arena.length) :
    (s.setPtr l (some j) v).arena = s.arena := by
  show s.arena.set j _ = s.arena
  exact List.set_eq_of_length_le (by omega)

@[simp] theorem setPtr_keyOf (i : Nat) : (s.setPtr l tgt v).keyOf i = s.keyOf i := by
  cases tgt with
  | none => rfl
  | some j =>
      rcases Nat.lt_or_ge j s.arena.length with hlen | hlen
      · by_cases hji : j = i
        · subst hji
          show ((s.setPtr l (some j) v).getNode j).mKey = (s.getNode j).mKey
          rw [getNode_setPtr_self s l v hlen]
        · show ((s.setPtr l (some j) v).getNode i).mKey = (s.getNode i).mKey
          rw [getNode_setPtr_other s l v hji]
      · have ha := setPtr_arena_oob s l v (j := j) (by omega)
        show ((s.setPtr l (some j) v).arena.getD i ⟨default, []⟩).mKey
          = (s.arena.getD i ⟨default, []⟩).mKey
        rw [ha]

@[simp] theorem setPtr_heightOf (i : Nat) : (s.setPtr l tgt v).heightOf i = s.heightOf i := by
  cases tgt with
  | none => rfl
  | some j =>
      rcases Nat.lt_or_ge j s.arena.length with hlen | hlen
      · by_cases hji : j = i
        · subst hji
          show ((s.setPtr l (some j) v).getNode j).mRhs.length = (s.getNode j).mRhs.length
          rw [getNode_setPtr_self s l v hlen]
          exact List.length_set _ _ _
        · show ((s.setPtr l (some j) v).getNode i).mRhs.length = (s.getNode i).mRhs.length
          rw [getNode_setPtr_other s l v hji]
      · have ha := setPtr_arena_oob s l v (j := j) (by omega)
        show ((s.setPtr l (some j) v).arena.getD i ⟨default, []⟩).mRhs.length
          = (s.arena.getD i ⟨default, []⟩).mRhs.length
        rw [ha]

@[simp] theorem setPtr_mHead_length : (s.setPtr l tgt v).mHead.length = s.mHead.length := by
  cases tgt with
  | none => exact List.length_set _ _ _
  | some j => rfl

theorem ptrOk_setPtr (m : Nat) (p : Option Nat) :
    (s.setPtr l tgt v).ptrOk m p ↔ s.ptrOk m p := by
  unfold skiplist.ptrOk
  simp

theorem nodeNext_setPtr_node_other {j i : Nat} (h : j ≠ i) (m : Nat) :
    nodeNext (s.setPtr l (some j) v).arena m i = nodeNext s.arena m i := by
  have := getNode_setPtr_other s l v h (i := i)
  unfold nodeNext
  unfold skiplist.getNode at this
  rw [this]

theorem nodeNext_setPtr_head (m i : Nat) :
    nodeNext (s.setPtr l none v).arena m i = nodeNext s.arena m i := rfl

theorem nodeNext_setPtr_self (j : Nat) (hlen : j < s.arena.length)
    (hl : l < s.heightOf j) : nodeNext (s.setPtr l (some j) v).arena l j = v := by
  have hg := getNode_setPtr_self s l v hlen
  unfold nodeNext
  unfold skiplist.getNode at hg
  rw [hg]
  exact getD_set_self _ _ _ _ hl

theorem nodeNext_setPtr_self_oob (j : Nat) (hl : ¬ l < s.heightOf j) :
    nodeNext (s.setPtr l (some j) v).arena l j = nodeNext s.arena l j := by
  rcases Nat.lt_or_ge j s.arena.length with hlen | hlen
  · have hg := getNode_setPtr_self s l v hlen
    unfold nodeNext
    unfold skiplist.getNode at hg
    rw [hg]
    have hle : (s.getNode j).mRhs.length ≤ l := by
      unfold skiplist.heightOf at hl
      omega
    show ((s.getNode j).mRhs.set l v).getD l none = _
    rw [List.set_eq_of_length_le hle]
    rfl
  · have ha := setPtr_arena_oob s l v (j := j) (by omega)
    rw [ha]

theorem nodeNext_setPtr_node_ne_level {m : Nat} (h : m ≠ l) (j i : Nat) :
    nodeNext (s.setPtr l (some j) v).arena m i = nodeNext s.arena m i := by
  by_cases hji : j = i
  · subst hji
    rcases Nat.lt_or_ge j s.arena.length with hlen | hlen
    · have hg := getNode_setPtr_self s l v hlen
      unfold nodeNext
      unfold skiplist.getNode at hg
      rw [hg]
      show ((s.getNode j).mRhs.set l v).getD m none = _
      rw [getD_set_ne _ _ _ (fun he => h he.symm)]
      rfl
    · have ha := setPtr_arena_oob s l v (j := j) (by omega)
      rw [ha]
  · exact nodeNext_setPtr_node_other s l v hji m

theorem nextOf_setPtr_ne_level {m : Nat} (h : m ≠ l) (p : Option Nat) :
    (s.setPtr l tgt v).nextOf m p = s.nextOf m p := by
  cases p with
  | none =>
      cases tgt with
      | none =>
          show (s.mHead.set l v).getD m none = s.mHead.getD m none
          exact getD_set_ne _ _ _ (fun he => h he.symm)
      | some j => rfl
  | some i =>
      cases tgt with
      | none => rfl
      | some j => exact nodeNext_setPtr_node_ne_level s l v h j i

theorem nextOf_setPtr_other {p : Option Nat} (h : p ≠ tgt) (m : Nat) :
    (s.setPtr l tgt v).nextOf m p = s.nextOf m p := by
  cases p with
  | none =>
      cases tgt with
      | none => exact absurd rfl h
      | some j => rfl
  | some i =>
      cases tgt with
      | none => rfl
      | some j =>
          exact nodeNext_setPtr_node_other s l v (fun he => h (by simp [he])) m

/-- One pointer write preserves the invariant when the written value is a
valid level pointer whose target key does not precede the written node's
key (in `edgeRel` form). -/
theorem INV.setPtr_preserve {α : Type} [Inhabited α] {s : skiplist α} (hinv : INV s)
    (l : Nat) (tgt v : Option Nat)
    (hvOk : s.ptrOk l v)
    (hrel : ∀ i j, tgt = some i → v = some j → edgeRel s.mCompare s.keyOf i j) :
    INV (s.setPtr l tgt v) := by
  have hkeys : ∀ i, (s.setPtr l tgt v).keyOf i = s.keyOf i := setPtr_keyOf s l tgt v
  have hcomp : (s.setPtr l tgt v).mCompare = s.mCompare := setPtr_mCompare s l tgt v
  constructor
  · -- head_tgt
    intro m
    rw [ptrOk_setPtr]
    cases tgt with
    | some j =>
        show s.ptrOk m ((s.mHead).getD m none)
        exact hinv.head_tgt m
    | none =>
        by_cases hml : m = l
        · subst hml
          rcases Nat.lt_or_ge m s.mHead.length with hh | hh
          · rw [show (s.setPtr m none v).mHead.getD m none = v from
              getD_set_self _ _ _ _ hh]
            exact hvOk
          · have hh2 : (s.setPtr m none v).mHead = s.mHead := by
              show s.mHead.set m v = s.mHead
              exact List.set_eq_of_length_le (by omega)
            rw [hh2]
            exact hinv.head_tgt m
        · rw [show (s.setPtr l none v).mHead.getD m none = s.mHead.getD m none from
            getD_set_ne _ _ _ (fun he => hml he.symm)]
          exact hinv.head_tgt m
  · -- edge_tgt
    intro i m hi
    rw [ptrOk_setPtr]
    rw [setPtr_arena_length] at hi
    cases tgt with
    | none =>
        rw [nodeNext_setPtr_head]
        exact hinv.edge_tgt i m hi
    | some j =>
        by_cases hji : j = i
        · subst hji
          by_cases hml : m = l
          · subst hml
            by_cases hht : m < s.heightOf j
            · rw [nodeNext_setPtr_self s m v j hi hht]
              exact hvOk
            · rw [nodeNext_setPtr_self_oob s m v j hht]
              exact hinv.edge_tgt j m hi
          · rw [nodeNext_setPtr_node_ne_level s l v hml j j]
            exact hinv.edge_tgt j m hi
        · rw [nodeNext_setPtr_node_other s l v hji m]
          exact hinv.edge_tgt i m hi
  · -- edge_rel
    intro i m j hi hnx
    rw [setPtr_arena_length] at hi
    have htr : edgeRel s.mCompare s.keyOf i j → edgeRel (s.setPtr l tgt v).mCompare
        (s.setPtr l tgt v).keyOf i j := by
      intro h
      unfold edgeRel at h ⊢
      simpa [hcomp, hkeys] using h
    cases tgt with
    | none =>
        rw [nodeNext_setPtr_head] at hnx
        exact htr (hinv.edge_rel i m j hi hnx)
    | some t =>
        by_cases hti : t = i
        · subst hti
          by_cases hml : m = l
          · subst hml
            by_cases hht : m < s.heightOf t
            · rw [nodeNext_setPtr_self s m v t hi hht] at hnx
              exact htr (hrel t j rfl hnx)
            · rw [nodeNext_setPtr_self_oob s m v t hht] at hnx
              exact htr (hinv.edge_rel t m j hi hnx)
          · rw [nodeNext_setPtr_node_ne_level s l v hml t t] at hnx
            exact htr (hinv.edge_rel t m j hi hnx)
        · rw [nodeNext_setPtr_node_other s l v hti m] at hnx
          exact htr (hinv.edge_rel i m j hi hnx)

end SetPtr

/-! Reading a state after allocating a fresh node. -/

section AllocNode

variable {α : Type} [Inhabited α] (s : skiplist α) (key : α) (height : Nat)

@[simp] theorem allocNode_mCompare : (s.allocNode key height).mCompare = s.mCompare := rfl

@[simp] theorem allocNode_mHead : (s.allocNode key height).mHead = s.mHead := rfl

@[simp] theorem allocNode_freed : (s.allocNode key height).freed = s.freed := rfl

@[simp] theorem allocNode_arena_length :
    (s.allocNode key height).arena.length = s.arena.length + 1 := by
  simp [skiplist.allocNode]

theorem getNode_allocNode_lt {i : Nat} (h : i < s.arena.length) :
    (s.allocNode key height).getNode i = s.getNode i := by
  show (s.arena ++ [(⟨key, List.replicate height none⟩ : node α)]).getD i ⟨default, []⟩
    = s.arena.getD i ⟨default, []⟩
  exact getD_append_left _ h

theorem getNode_allocNode_self :
    (s.allocNode key height).getNode s.arena.length = ⟨key, List.replicate height none⟩ := by
  show (s.arena ++ [(⟨key, List.replicate height none⟩ : node α)]).getD s.arena.length
    ⟨default, []⟩ = _
  exact getD_concat_self _ _ _

theorem keyOf_allocNode_lt {i : Nat} (h : i < s.arena.length) :
    (s.allocNode key height).keyOf i = s.keyOf i := by
  unfold skiplist.keyOf
  rw [getNode_allocNode_lt s key height h]

theorem keyOf_allocNode_self : (s.allocNode key height).keyOf s.arena.length = key := by
  unfold skiplist.keyOf
  rw [getNode_allocNode_self]

theorem heightOf_allocNode_lt {i : Nat} (h : i < s.arena.length) :
    (s.allocNode key height).heightOf i = s.heightOf i := by
  unfold skiplist.heightOf
  rw [getNode_allocNode_lt s key height h]

theorem heightOf_allocNode_self :
    (s.allocNode key height).heightOf s.arena.length = height := by
  unfold skiplist.heightOf
  rw [getNode_allocNode_self]
  exact List.length_replicate _ _

theorem nodeNext_allocNode_lt {i : Nat} (h : i < s.arena.length) (l : Nat) :
    nodeNext (s.allocNode key height).arena l i = nodeNext s.arena l i := by
  have hg := getNode_allocNode_lt s key height h
  unfold skiplist.getNode at hg
  unfold nodeNext
  rw [hg]

theorem nodeNext_allocNode_self (l : Nat) :
    nodeNext (s.allocNode key height).arena l s.arena.length = none := by
  have hg := getNode_allocNode_self s key height
  unfold skiplist.getNode at hg
  unfold nodeNext
  rw [hg]
  exact getD_replicate_none _ _

theorem nextOf_allocNode {p : Option Nat} (hp : ∀ i, p = some i → i < s.arena.length)
    (l : Nat) : (s.allocNode key height).nextOf l p = s.nextOf l p := by
  cases p with
  | none => rfl
  | some i => exact nodeNext_allocNode_lt s key height (hp i rfl) l

theorem INV_allocNode (hinv : INV s) : INV (s.allocNode key height) := by
  constructor
  · intro l j hj
    have := hinv.head_tgt l j hj
    rw [heightOf_allocNode_lt s key height this.1]
    exact ⟨by simp; omega, this.2⟩
  · intro i l hi j hj
    simp only [allocNode_arena_length] at hi
    rcases Nat.lt_or_ge i s.arena.length with hlt | hge
    · rw [nodeNext_allocNode_lt s key height hlt l] at hj
      have := hinv.edge_tgt i l hlt j hj
      rw [heightOf_allocNode_lt s key height this.1]
      exact ⟨by simp; omega, this.2⟩
    · have hieq : i = s.arena.length := by omega
      subst hieq
      rw [nodeNext_allocNode_self s key height l] at hj
      cases hj
  · intro i l j hi hj
    simp only [allocNode_arena_length] at hi
    rcases Nat.lt_or_ge i s.arena.length with hlt | hge
    · rw [nodeNext_allocNode_lt s key height hlt l] at hj
      have hrel := hinv.edge_rel i l j hlt hj
      have hjlt := (hinv.edge_tgt i l hlt j hj).1
      unfold edgeRel at hrel ⊢
      rw [allocNode_mCompare, keyOf_allocNode_lt s key height hlt,
        keyOf_allocNode_lt s key height hjlt]
      exact hrel
    · have hieq : i = s.arena.length := by omega
      subst hieq
      rw [nodeNext_allocNode_self s key height l] at hj
      cases hj

end AllocNode

/-! Invariant preservation through the splice and unlink loops. -/

/-- What each used buffer entry guarantees, relative to the current state,
while insert's splice loop runs: head or an old (pre-allocation) node whose
key precedes the new key, and whose current level-`m` neighbour does not
precede the new key and is an old node. -/
def stepOk {α : Type} [Inhabited α] (t : skiplist α) (key : α) (newId m : Nat)
    (e : Option Nat) : Prop :=
  (∀ i, e = some i → i < t.arena.length ∧ i ≠ newId ∧ t.mCompare (t.keyOf i) key = true) ∧
  (∀ w, t.nextOf m e = some w → t.mCompare (t.keyOf w) key = false ∧ w < newId)

theorem spliceLoop_INV {α : Type} [Inhabited α] {lhs : List (Option Nat)} {newId : Nat}
    {key : α} :
    ∀ (h : Nat) (t : skiplist α), INV t → t.keyOf newId = key →
      newId < t.arena.length →
      (∀ m, m < h → m < t.heightOf newId) →
      (∀ m, m < h → stepOk t key newId m (lhs.getD m none)) →
      INV (spliceLoop t lhs newId h)
  | 0, t, hinv, _, _, _, _ => hinv
  | h + 1, t, hinv, hkey, hlen, hht, hstep => by
      show INV (spliceLoop
        ((t.setPtr h (some newId) (t.nextOf h (lhs.getD h none))).setPtr h
          (lhs.getD h none) (some newId)) lhs newId h)
      have hstep0 := hstep h (Nat.lt_succ_self h)
      have hinv1 : INV (t.setPtr h (some newId) (t.nextOf h (lhs.getD h none))) := by
        refine hinv.setPtr_preserve h (some newId) _ ?_ ?_
        · exact hinv.nextOk h (fun i hi => (hstep0.1 i hi).1)
        · intro i j hi hj
          cases hi
          obtain ⟨hstop, hjlt⟩ := hstep0.2 j hj
          cases hc : t.mCompare (t.keyOf newId) (t.keyOf j) with
          | true => exact Or.inl hc
          | false =>
              refine Or.inr ⟨hc, ?_, hjlt⟩
              rw [hkey]
              exact hstop
      have hinv2 : INV ((t.setPtr h (some newId) (t.nextOf h (lhs.getD h none))).setPtr h
          (lhs.getD h none) (some newId)) := by
        refine hinv1.setPtr_preserve h (lhs.getD h none) (some newId) ?_ ?_
        · intro j hj
          cases hj
          simp only [setPtr_arena_length, setPtr_heightOf]
          exact ⟨hlen, hht h (Nat.lt_succ_self h)⟩
        · intro i j hi hj
          cases hj
          refine Or.inl ?_
          simp only [setPtr_mCompare, setPtr_keyOf]
          rw [hkey]
          exact (hstep0.1 i hi).2.2
      refine @spliceLoop_INV α _ lhs newId key h _ hinv2 ?_ ?_ ?_ ?_
      · simp [hkey]
      · simpa using hlen
      · intro m hm
        simpa using hht m (Nat.lt_succ_of_lt hm)
      · intro m hm
        have hs := hstep m (Nat.lt_succ_of_lt hm)
        constructor
        · intro i hi
          simpa using hs.1 i hi
        · intro w hw
          have hne : m ≠ h := by omega
          rw [nextOf_setPtr_ne_level _ _ _ _ hne, nextOf_setPtr_ne_level _ _ _ _ hne] at hw
          simpa using hs.2 w hw

/-- What each used buffer entry guarantees while erase's unlink loop runs. -/
def eStepOk {α : Type} [Inhabited α] (t : skiplist α) (key : α) (e : Option Nat) : Prop :=
  ∀ i, e = some i → i < t.arena.length ∧ t.mCompare (t.keyOf i) key = true

theorem eraseLoop_INV {α : Type} [Inhabited α] {lhs : List (Option Nat)} {idx : Nat}
    {key : α} :
    ∀ (h : Nat) (t : skiplist α), INV t → IsSWO t.mCompare → t.keyOf idx = key →
      (∀ m, m < h → eStepOk t key (lhs.getD m none)) →
      INV (eraseLoop t lhs idx h)
  | 0, t, hinv, _, _, _ => hinv
  | h + 1, t, hinv, hswo, hkey, hstep => by
      show INV (eraseLoop
        (t.setPtr h (lhs.getD h none) ((t.getNode idx).mRhs.getD h none)) lhs idx h)
      have hstep0 := hstep h (Nat.lt_succ_self h)
      have hw : (t.getNode idx).mRhs.getD h none = nodeNext t.arena h idx := rfl
      have hidx_lt : ∀ j, (t.getNode idx).mRhs.getD h none = some j → idx < t.arena.length := by
        intro j hj
        by_contra hge
        rw [hw, nodeNext_oob hge] at hj
        cases hj
      have hinv1 : INV (t.setPtr h (lhs.getD h none) ((t.getNode idx).mRhs.getD h none)) := by
        refine hinv.setPtr_preserve h (lhs.getD h none) _ ?_ ?_
        · intro j hj
          exact hinv.edge_tgt idx h (hidx_lt j hj) j (hw ▸ hj)
        · intro i j hi hj
          obtain ⟨hilen, hikey⟩ := hstep0 i hi
          have hrel := hinv.edge_rel idx h j (hidx_lt j hj) (hw ▸ hj)
          refine Or.inl ?_
          rcases hrel with hrel | ⟨hrel1, hrel2, _⟩
          · rw [hkey] at hrel
            exact hswo.lt_trans _ _ _ hikey hrel
          · rw [hkey] at hrel2
            exact hswo.lt_of_lt_of_nlt _ _ _ hikey hrel2
      refine @eraseLoop_INV α _ lhs idx key h _ hinv1 ?_ ?_ ?_
      · simpa using hswo
      · simp [hkey]
      · intro m hm
        intro i hi
        simpa using hstep m (Nat.lt_succ_of_lt hm) i hi

/-! Invariant preservation by the public operations. -/

theorem INV_set_freed {α : Type} [Inhabited α] {t : skiplist α} (f : List Nat)
    (h : INV t) : INV ({ t with freed := f } : skiplist α) := by
  constructor
  · exact h.head_tgt
  · exact h.edge_tgt
  · exact h.edge_rel

theorem INV_insertH {α : Type} [Inhabited α] {s : skiplist α} (hinv : INV s)
    (hswo : IsSWO s.mCompare) (key : α) (height : Nat) :
    INV (s.insertH key height).1 := by
  show INV (spliceLoop (s.allocNode key height) (s.discoverLinksToUpdate key height)
    s.arena.length height)
  refine spliceLoop_INV height (s.allocNode key height) (INV_allocNode s key height hinv)
    (keyOf_allocNode_self s key height) (by simp) ?_ ?_
  · intro m hm
    rw [heightOf_allocNode_self]
    exact hm
  · intro m hm
    obtain ⟨hok, hkeylt, hstop⟩ := discover_entries hinv hswo key height m hm
    constructor
    · intro i hi
      have h1 := hok i hi
      refine ⟨by simp; omega, by omega, ?_⟩
      rw [allocNode_mCompare, keyOf_allocNode_lt s key height h1.1]
      exact hkeylt i hi
    · intro w hw
      rw [nextOf_allocNode s key height (fun i hi => (hok i hi).1)] at hw
      have hwlt := hinv.nextOk m (fun i hi => (hok i hi).1) w hw
      refine ⟨?_, hwlt.1⟩
      rw [allocNode_mCompare, keyOf_allocNode_lt s key height hwlt.1]
      exact hstop w hw

theorem INV_insert {α : Type} [Inhabited α] {s : skiplist α} (hinv : INV s)
    (hswo : IsSWO s.mCompare) (key : α) (flips : List Bool) :
    INV (s.insert key flips).1 :=
  INV_insertH hinv hswo key (chooseHeight flips)

theorem INV_erase {α : Type} [Inhabited α] {s : skiplist α} (hinv : INV s)
    (hswo : IsSWO s.mCompare) (idx : Nat) :
    INV (s.erase idx).1 := by
  show INV { eraseLoop s (s.discoverLinksToUpdate (s.getNode idx).mKey
      (s.getNode idx).mRhs.length) idx (s.getNode idx).mRhs.length with
    freed := idx :: (eraseLoop s (s.discoverLinksToUpdate (s.getNode idx).mKey
      (s.getNode idx).mRhs.length) idx (s.getNode idx).mRhs.length).freed }
  refine INV_set_freed _ ?_
  refine eraseLoop_INV (s.getNode idx).mRhs.length s hinv hswo rfl ?_
  intro m hm i hi
  obtain ⟨hok, hkeylt, _⟩ := discover_entries hinv hswo (s.getNode idx).mKey
    (s.getNode idx).mRhs.length m hm
  exact ⟨(hok i hi).1, hkeylt i hi⟩

/-! The comparator member is never modified by any operation. -/

theorem spliceLoop_mCompare {α : Type} [Inhabited α] {lhs : List (Option Nat)} {newId : Nat} :
    ∀ (h : Nat) (t : skiplist α), (spliceLoop t lhs newId h).mCompare = t.mCompare
  | 0, t => rfl
  | h + 1, t => by
      show (spliceLoop ((t.setPtr h (some newId) (t.nextOf h (lhs.getD h none))).setPtr h
        (lhs.getD h none) (some newId)) lhs newId h).mCompare = t.mCompare
      rw [spliceLoop_mCompare h]
      simp

theorem eraseLoop_mCompare {α : Type} [Inhabited α] {lhs : List (Option Nat)} {idx : Nat} :
    ∀ (h : Nat) (t : skiplist α), (eraseLoop t lhs idx h).mCompare = t.mCompare
  | 0, t => rfl
  | h + 1, t => by
      show (eraseLoop (t.setPtr h (lhs.getD h none) ((t.getNode idx).mRhs.getD h none))
        lhs idx h).mCompare = t.mCompare
      rw [eraseLoop_mCompare h]
      simp

theorem insert_mCompare {α : Type} [Inhabited α] (s : skiplist α) (key : α)
    (flips : List Bool) : (s.insert key flips).1.mCompare = s.mCompare := by
  show (spliceLoop (s.allocNode key (chooseHeight flips)) _ _ _).mCompare = s.mCompare
  rw [spliceLoop_mCompare]
  rfl

theorem erase_mCompare {α : Type} [Inhabited α] (s : skiplist α) (idx : Nat) :
    (s.erase idx).1.mCompare = s.mCompare := by
  show (eraseLoop s _ idx _).mCompare = s.mCompare
  exact eraseLoop_mCompare _ s

theorem INV_empty {α : Type} [Inhabited α] (compare : α → α → Bool) :
    INV (emptySkiplist compare) := by
  constructor
  · intro l j hj
    rw [show (emptySkiplist compare).mHead.getD l none = none from
      getD_replicate_none _ _] at hj
    cases hj
  · intro i l hi
    simp [emptySkiplist] at hi
  · intro i l j hi
    simp [emptySkiplist] at hi

/-- Every state reachable by inserts and erases (at live, non-end iterators)
satisfies the pointer invariant, provided the comparator is a strict weak
ordering. -/
theorem Reach_INV {α : Type} [Inhabited α] {s : skiplist α} (hr : Reach s)
    (hswo : IsSWO s.mCompare) : INV s := by
  induction hr with
  | empty compare => exact INV_empty compare
  | @insert t key flips hr ih =>
      rw [insert_mCompare] at hswo
      exact INV_insert (ih hswo) hswo key flips
  | @erase t idx hr hlive ih =>
      rw [erase_mCompare] at hswo
      exact INV_erase (ih hswo) hswo idx

/-- `ltNat` is a strict weak ordering. -/
theorem swoLtNat : IsSWO ltNat := by
  refine ⟨?_, ?_, ?_⟩
  · intro a
    simp only [ltNat, Bool.eq_false_iff, ne_eq, Nat.blt_eq]
    omega
  · intro a b c h1 h2
    simp only [ltNat, Nat.blt_eq] at h1 h2 ⊢
    omega
  · intro a b c h1 h2 h3 h4
    simp only [ltNat] at h1 h2 h3 h4 ⊢
    simp only [Bool.eq_false_iff, ne_eq, Nat.blt_eq] at h1 h2 h3 h4 ⊢
    omega

/-- C1: starting from an empty container whose comparator is a strict weak
ordering, after any sequence of insert and erase operations (each erase on a
valid, non-end iterator) and any coin-flip outcomes, the full forward
traversal from begin() to end() yields keys in non-decreasing order under
the comparator. -/
theorem C1_traversal_sorted {α : Type} [Inhabited α] (s : skiplist α) (hr : Reach s)
    (hswo : IsSWO s.mCompare) :
    List.Chain' (fun a b => s.mCompare b a = false) s.keysList := by
  have hinv := Reach_INV hr hswo
  unfold skiplist.keysList skiplist.traverse skiplist.chainAt
  rw [List.chain'_map]
  have hchain := pathFrom_chain hinv 0 (s.arena.length + 1) (s.mHead.getD 0 none)
    (hinv.head_tgt 0)
  refine hchain.imp ?_
  intro a b hab
  rcases hab with hlt | ⟨h1, h2, _⟩
  · exact hswo.asymm _ _ hlt
  · exact h2

/-- A concrete reachable container for instantiating C1. -/
def c1wit : skiplist Nat := (((emptySkiplist ltNat).insert 3 []).1.insert 1 [true]).1

theorem C1_witness : List.Chain' (fun a b => c1wit.mCompare b a = false) c1wit.keysList :=
  C1_traversal_sorted c1wit
    (Reach.insert 1 [true] (Reach.insert 3 [] (Reach.empty ltNat))) swoLtNat

/-! Well-formed states: the states produced by inserts and by erases whose
target is not preceded by a comparator-equal node.  `ids` abstracts the
level-0 chain; every level-`l` chain is its filter by height. -/

/-- The sub-list of `ids` whose nodes participate in level `l`. -/
def levelIds {α : Type} [Inhabited α] (s : skiplist α) (ids : List Nat) (l : Nat) : List Nat :=
  ids.filter (fun i => decide (l < s.heightOf i))

/-- The head's level-`l` forward pointer. -/
def headSlot {α : Type} (s : skiplist α) (l : Nat) : Option Nat :=
  s.mHead.getD l none

/-- A well-formed state with abstract element list `ids` (level-0 order):
the head has all MAX_HEIGHT slots; the level-`l` chain from the head is
exactly the height-filtered sub-list of `ids`; `ids` lists each live node
once, and every live node; heights are in range; keys are non-decreasing. -/
structure WF {α : Type} [Inhabited α] (s : skiplist α) (ids : List Nat) : Prop where
  head_len : s.mHead.length = MAX_HEIGHT
  chains : ∀ l, l < MAX_HEIGHT → IsPath s.arena l (headSlot s l) (levelIds s ids l)
  nodup : ids.Nodup
  mem_lt : ∀ i ∈ ids, i < s.arena.length
  mem_live : ∀ i ∈ ids, i ∉ s.freed
  freed_lt : ∀ i ∈ s.freed, i < s.arena.length
  complete : ∀ i, i < s.arena.length → i ∉ s.freed → i ∈ ids
  hbound : ∀ i ∈ ids, 1 ≤ s.heightOf i ∧ s.heightOf i ≤ MAX_HEIGHT
  sorted : ids.Pairwise (fun a b => s.mCompare (s.keyOf b) (s.keyOf a) = false)

theorem getD_oob {γ : Type} {xs : List γ} {i : Nat} (d : γ) (h : xs.length ≤ i) :
    xs.getD i d = d := by
  rw [List.getD_eq_getElem?_getD, List.getElem?_eq_none h]
  rfl

theorem pathFrom_none {α : Type} [Inhabited α] (arena : List (node α)) (l fuel : Nat) :
    pathFrom arena l none fuel = [] := by
  cases fuel <;> rfl

theorem WF.level0 {α : Type} [Inhabited α] {s : skiplist α} {ids : List Nat}
    (hwf : WF s ids) : levelIds s ids 0 = ids := by
  unfold levelIds
  refine List.filter_eq_self.mpr ?_
  intro i hi
  have := (hwf.hbound i hi).1
  simp
  omega

theorem WF.ids_length_le {α : Type} [Inhabited α] {s : skiplist α} {ids : List Nat}
    (hwf : WF s ids) : ids.length ≤ s.arena.length :=
  length_le_of_nodup_bounded hwf.nodup hwf.mem_lt

theorem WF.chainAt_eq {α : Type} [Inhabited α] {s : skiplist α} {ids : List Nat}
    (hwf : WF s ids) {l : Nat} (hl : l < MAX_HEIGHT) :
    s.chainAt l = levelIds s ids l := by
  unfold skiplist.chainAt
  refine pathFrom_of_isPath (hwf.chains l hl) _ ?_
  have h1 : (levelIds s ids l).length ≤ ids.length := List.length_filter_le _ _
  have h2 := hwf.ids_length_le
  omega

theorem WF.chainAt_high {α : Type} [Inhabited α] {s : skiplist α} {ids : List Nat}
    (hwf : WF s ids) {l : Nat} (hl : MAX_HEIGHT ≤ l) :
    s.chainAt l = [] := by
  unfold skiplist.chainAt
  rw [show s.mHead.getD l none = none from getD_oob none (by rw [hwf.head_len]; omega)]
  exact pathFrom_none _ _ _

theorem WF.traverse_eq {α : Type} [Inhabited α] {s : skiplist α} {ids : List Nat}
    (hwf : WF s ids) : s.traverse = ids := by
  unfold skiplist.traverse
  rw [hwf.chainAt_eq (by decide), hwf.level0]

theorem WF.keysList_eq {α : Type} [Inhabited α] {s : skiplist α} {ids : List Nat}
    (hwf : WF s ids) : s.keysList = ids.map s.keyOf := by
  unfold skiplist.keysList
  rw [hwf.traverse_eq]

/-! Pure list helpers for the chain surgery. -/

/-- Any list splits into a prefix ending at the last `p`-element (as the
filter's last element witnesses) and a `p`-free suffix. -/
theorem exists_filter_split {γ : Type} (p : γ → Bool) (xs : List γ) :
    ∃ B R, xs = B ++ R ∧ B.getLast? = (xs.filter p).getLast? ∧ ∀ x ∈ R, p x = false := by
  induction xs using List.reverseRecOn with
  | nil => exact ⟨[], [], rfl, rfl, by simp⟩
  | append_singleton ys x ih =>
      by_cases hp : p x
      · refine ⟨ys ++ [x], [], by simp, ?_, by simp⟩
        rw [List.filter_append]
        simp [hp]
      · obtain ⟨B, R, hsplit, hlast, hR⟩ := ih
        refine ⟨B, R ++ [x], by rw [hsplit]; simp, ?_, ?_⟩
        · rw [List.filter_append]
          simp only [List.filter_cons, List.filter_nil]
          simp [hp, hlast]
        · intro y hy
          rcases List.mem_append.mp hy with hy | hy
          · exact hR y hy
          · simp at hy
            subst hy
            simpa using hp

theorem or_getLast_append {γ : Type} (B R : List γ) :
    (B ++ R).getLast? = R.getLast?.or B.getLast? := by
  induction R using List.reverseRecOn with
  | nil => cases hB : B.getLast? <;> simp [Option.or, hB]
  | append_singleton R2 x ih =>
      rw [← List.append_assoc, List.getLast?_concat, List.getLast?_concat]
      rfl

theorem getLast?_cons_or {γ : Type} (x : γ) (R : List γ) (n : Option γ) :
    (x :: R).getLast?.or n = R.getLast?.or (some x) := by
  cases R with
  | nil => rfl
  | cons y R2 =>
      rw [List.getLast?_cons_cons]
      cases h : (y :: R2).getLast? with
      | none =>
          rcases (y :: R2).eq_nil_or_concat with he | ⟨B2, b, he⟩
          · cases he
          · rw [he, List.concat_eq_append, List.getLast?_concat] at h
            cases h
      | some z => rfl

/-- The state of the level descent shared by discovery and find, entering
the walk at level index `l` from position `n` (`none` = head): `n` sits at
the end of a prefix `B` of the level-`l` filtered `P`-part, and following
level-`l` pointers from `n` consumes the rest of that part, then the
filtered `Q`-part, then null. -/
def DescInv {α : Type} [Inhabited α] (s : skiplist α) (P Q : List Nat) (l : Nat)
    (n : Option Nat) : Prop :=
  ∃ B R, n = B.getLast? ∧ levelIds s P l = B ++ R ∧
    IsSeg s.arena l (s.nextOf l n) (R ++ levelIds s Q l) none

theorem walkLevel_succ {α : Type} [Inhabited α] (s : skiplist α) (key : α) (l : Nat)
    (n : Option Nat) (fuel : Nat) :
    s.walkLevel key l n (fuel + 1) = match s.nextOf l n with
      | none => n
      | some v =>
          if s.mCompare (s.getNode v).mKey key = true then s.walkLevel key l (some v) fuel
          else n := rfl

/-- The discovery walk along a split chain: it crosses exactly the
`R`-part (all of whose keys precede the target) and stops before the
`QL`-part (whose first key does not precede the target). -/
theorem walkLevel_on_seg {α : Type} [Inhabited α] {s : skiplist α} (key : α) (l : Nat) :
    ∀ (R : List Nat) (n : Option Nat) (QL : List Nat) (fuel : Nat),
      (∀ x ∈ R, s.mCompare (s.keyOf x) key = true) →
      (∀ x, QL.head? = some x → s.mCompare (s.keyOf x) key = false) →
      IsSeg s.arena l (s.nextOf l n) (R ++ QL) none →
      R.length < fuel →
      s.walkLevel key l n fuel = R.getLast?.or n ∧
      IsSeg s.arena l (s.nextOf l (R.getLast?.or n)) QL none
  | [], n, QL, fuel, hR, hQ, hseg, hlen => by
      obtain ⟨f, rfl⟩ : ∃ f, fuel = f + 1 := ⟨fuel - 1, by omega⟩
      simp only [List.nil_append] at hseg
      have hres : s.walkLevel key l n (f + 1) = n := by
        unfold skiplist.walkLevel
        cases hQL : QL with
        | nil =>
            have hnone : s.nextOf l n = none := by
              have := hQL ▸ hseg
              exact this.nil_inv
            rw [hnone]
        | cons q QL2 =>
            obtain ⟨hq, _⟩ := (hQL ▸ hseg).cons_inv
            rw [hq]
            have hc := hQ q (by rw [hQL]; rfl)
            simp only [show s.mCompare (s.getNode q).mKey key = false from hc]
            rw [if_neg Bool.false_ne_true]
      exact ⟨hres, hseg⟩
  | x :: R, n, QL, fuel, hR, hQ, hseg, hlen => by
      obtain ⟨f, rfl⟩ : ∃ f, fuel = f + 1 := ⟨fuel - 1, by omega⟩
      obtain ⟨hx, hrest⟩ := hseg.cons_inv
      have hcx : s.mCompare (s.getNode x).mKey key = true := hR x (by simp)
      have hstep : s.walkLevel key l n (f + 1) = s.walkLevel key l (some x) f := by
        rw [walkLevel_succ, hx]
        simp only [hcx, if_true]
      have IH := walkLevel_on_seg key l R (some x) QL f
        (fun y hy => hR y (List.mem_cons_of_mem x hy)) hQ hrest (by simpa using hlen)
      rw [hstep, getLast?_cons_or]
      exact IH

theorem seg_exit_next {α : Type} [Inhabited α] {s : skiplist α} {l : Nat}
    {n q : Option Nat} {B : List Nat}
    (hseg : IsSeg s.arena l (s.nextOf l n) B q) : q = s.nextOf l (B.getLast?.or n) := by
  rcases B.eq_nil_or_concat with rfl | ⟨B2, b, he⟩
  · simpa using hseg.nil_inv.symm
  · subst he
    rw [List.concat_eq_append] at hseg ⊢
    rw [List.getLast?_concat]
    exact hseg.last_next

theorem levelIds_append {α : Type} [Inhabited α] (s : skiplist α) (P Q : List Nat) (l : Nat) :
    levelIds s (P ++ Q) l = levelIds s P l ++ levelIds s Q l := by
  unfold levelIds
  exact List.filter_append _ _

theorem levelIds_step {α : Type} [Inhabited α] (s : skiplist α) (P : List Nat) (l : Nat) :
    (levelIds s P l).filter (fun i => decide (l + 1 < s.heightOf i)) = levelIds s P (l + 1) := by
  unfold levelIds
  rw [List.filter_filter]
  congr 1
  funext i
  by_cases h : l + 1 < s.heightOf i
  · simp [h]
    omega
  · simp [h]

/-- Descending one level: after a walk ends at the last `P`-node of the
level above, the invariant holds again one level down. -/
theorem descInv_descend {α : Type} [Inhabited α] {s : skiplist α} {ids P Q : List Nat}
    (hids : ids = P ++ Q) {l : Nat}
    (hch : IsPath s.arena l (headSlot s l) (levelIds s ids l)) :
    DescInv s P Q l ((levelIds s P (l + 1)).getLast?) := by
  obtain ⟨B, R, hsplit, hlast, hR⟩ :=
    exists_filter_split (fun i => decide (l + 1 < s.heightOf i)) (levelIds s P l)
  rw [levelIds_step] at hlast
  refine ⟨B, R, hlast.symm, hsplit, ?_⟩
  have hch2 : IsSeg s.arena l (s.nextOf l none)
      (B ++ (R ++ levelIds s Q l)) none := by
    have he : levelIds s ids l = B ++ (R ++ levelIds s Q l) := by
      rw [hids, levelIds_append, hsplit, List.append_assoc]
    exact he ▸ hch
  obtain ⟨q, hB, hRest⟩ := hch2.append_decomp
  have hq : q = s.nextOf l (B.getLast?.or none) := seg_exit_next hB
  rw [Option.or_none] at hq
  rw [← hlast]
  exact hq ▸ hRest

theorem mem_of_filter_part {α : Type} [Inhabited α] {s : skiplist α} {P B R : List Nat}
    {l : Nat} (hPL : levelIds s P l = B ++ R) {x : Nat} (hx : x ∈ R) : x ∈ P := by
  have : x ∈ levelIds s P l := by rw [hPL]; exact List.mem_append_right B hx
  exact (List.mem_filter.mp this).1

theorem discoverAux_spec {α : Type} [Inhabited α] {s : skiplist α} {ids P Q : List Nat}
    (hwf : WF s ids) (hids : ids = P ++ Q) (key : α)
    (hP : ∀ x ∈ P, s.mCompare (s.keyOf x) key = true)
    (hQ : ∀ x ∈ Q, s.mCompare (s.keyOf x) key = false) :
    ∀ (l : Nat) (n : Option Nat), l ≤ MAX_HEIGHT →
      (∀ l2, l = l2 + 1 → DescInv s P Q l2 n) →
      ∀ m, m < l → (s.discoverAux key n l).getD m none = (levelIds s P m).getLast?
  | 0, n, _, _ => by omega
  | l + 1, n, hle, hinv => by
      intro m hm
      obtain ⟨B, R, hn, hPL, hseg⟩ := hinv l rfl
      have hfuel : R.length < s.arena.length + 1 := by
        have h1 : R.length ≤ (levelIds s P l).length := by rw [hPL]; simp
        have h2 : (levelIds s P l).length ≤ P.length := List.length_filter_le _ _
        have h3 : P.length ≤ ids.length := by rw [hids]; simp
        have h4 := hwf.ids_length_le
        omega
      have hwalk := walkLevel_on_seg key l R n (levelIds s Q l) (s.arena.length + 1)
        (fun x hx => hP x (mem_of_filter_part hPL hx))
        (fun x hx => hQ x (List.mem_filter.mp (List.mem_of_mem_head? hx)).1)
        hseg hfuel
      have hres : s.walkLevel key l n (s.arena.length + 1) = (levelIds s P l).getLast? := by
        rw [hwalk.1, hn, ← or_getLast_append, ← hPL]
      show ((s.discoverAux key (s.walkLevel key l n (s.arena.length + 1)) l)
          ++ [s.walkLevel key l n (s.arena.length + 1)]).getD m none
        = (levelIds s P m).getLast?
      rcases Nat.lt_or_ge m l with hml | hml
      · rw [getD_append_left none (by rw [discoverAux_length]; omega)]
        refine discoverAux_spec hwf hids key hP hQ l _ (by omega) ?_ m hml
        intro l2 hl2
        rw [hres]
        have hd := descInv_descend hids (hwf.chains l2 (by omega))
        rw [← hl2] at hd
        exact hd
      · have hmeq : m = l := by omega
        subst hmeq
        have hcc := getD_concat_self
          (s.discoverAux key (s.walkLevel key m n (s.arena.length + 1)) m)
          (s.walkLevel key m n (s.arena.length + 1)) none
        rw [discoverAux_length] at hcc
        rw [hcc, hres]

/-- The splice points discovered for a key that splits the sorted contents
as `P ++ Q`: at each used level, the last `P`-node present at that level
(or the head when there is none). -/
theorem discover_spec {α : Type} [Inhabited α] {s : skiplist α} {ids P Q : List Nat}
    (hwf : WF s ids) (hids : ids = P ++ Q) (key : α)
    (hP : ∀ x ∈ P, s.mCompare (s.keyOf x) key = true)
    (hQ : ∀ x ∈ Q, s.mCompare (s.keyOf x) key = false)
    {height : Nat} (hh : height ≤ MAX_HEIGHT) :
    ∀ m, m < height →
      (s.discoverLinksToUpdate key height).getD m none = (levelIds s P m).getLast? := by
  intro m hm
  refine discoverAux_spec hwf hids key hP hQ height none hh ?_ m hm
  intro l2 hl2
  refine ⟨[], levelIds s P l2, rfl, by simp, ?_⟩
  have hch := hwf.chains l2 (by omega)
  show IsSeg s.arena l2 (s.nextOf l2 none) (levelIds s P l2 ++ levelIds s Q l2) none
  rw [show levelIds s P l2 ++ levelIds s Q l2 = levelIds s ids l2 from by
    rw [hids, levelIds_append]]
  exact hch

/-! Chain transfer between states whose relevant pointers agree. -/

theorem seg_congr {α : Type} [Inhabited α] {a1 a2 : List (node α)} {l : Nat} :
    ∀ {B : List Nat} {p q : Option Nat}, IsSeg a1 l p B q →
      (∀ x ∈ B, nodeNext a2 l x = nodeNext a1 l x) → IsSeg a2 l p B q := by
  intro B
  induction B with
  | nil =>
      intro p q hseg _
      cases hseg.nil_inv
      exact IsSeg.nil p
  | cons x B ih =>
      intro p q hseg hB
      obtain ⟨hp, hrest⟩ := hseg.cons_inv
      subst hp
      refine IsSeg.cons ?_
      rw [hB x (by simp)]
      exact ih hrest (fun y hy => hB y (List.mem_cons_of_mem x hy))

/-- Rebuild a segment whose last node's forward pointer has been retargeted;
every earlier node's pointer is unchanged. -/
theorem seg_retarget {α : Type} [Inhabited α] {a1 a2 : List (node α)} {l : Nat}
    (newPtr : Option Nat) :
    ∀ (B : List Nat) (b : Nat) {p q : Option Nat},
      IsSeg a1 l p (B ++ [b]) q →
      (∀ x ∈ B, nodeNext a2 l x = nodeNext a1 l x) →
      nodeNext a2 l b = newPtr →
      IsSeg a2 l p (B ++ [b]) newPtr
  | [], b, p, q, hseg, hB, hb => by
      obtain ⟨hp, hrest⟩ := (by simpa using hseg : IsSeg a1 l p (b :: []) q).cons_inv
      subst hp
      show IsSeg a2 l (some b) (b :: []) newPtr
      exact IsSeg.cons (hb ▸ IsSeg.nil _)
  | x :: B, b, p, q, hseg, hB, hb => by
      obtain ⟨hp, hrest⟩ := (by simpa using hseg :
        IsSeg a1 l p (x :: (B ++ [b])) q).cons_inv
      subst hp
      show IsSeg a2 l (some x) (x :: (B ++ [b])) newPtr
      refine IsSeg.cons ?_
      rw [hB x (by simp)]
      exact seg_retarget newPtr B b hrest (fun y hy => hB y (by simp [hy])) hb

theorem levelIds_congr {α : Type} [Inhabited α] {s f : skiplist α} {X : List Nat}
    (h : ∀ x ∈ X, f.heightOf x = s.heightOf x) (l : Nat) :
    levelIds f X l = levelIds s X l := by
  unfold levelIds
  refine List.filter_congr ?_
  intro x hx
  rw [h x hx]

/-! What insert's splice loop does to every readable pointer. -/

/-- Reads of the state after `spliceLoop t lhs newId h`: levels at or above
`h` and pointers other than the new node and the used buffer entries are
untouched; at each level below `h` the new node holds the entry's old
neighbour, and the entry points at the new node. -/
structure SpliceReads {α : Type} [Inhabited α] (t f : skiplist α)
    (lhs : List (Option Nat)) (newId h : Nat) : Prop where
  comp : f.mCompare = t.mCompare
  freed : f.freed = t.freed
  alen : f.arena.length = t.arena.length
  hlen : f.mHead.length = t.mHead.length
  keys : ∀ i, f.keyOf i = t.keyOf i
  hts : ∀ i, f.heightOf i = t.heightOf i
  high : ∀ m, h ≤ m → ∀ p, f.nextOf m p = t.nextOf m p
  newPtr : ∀ m, m < h → f.nextOf m (some newId) = t.nextOf m (lhs.getD m none)
  entry : ∀ m, m < h → f.nextOf m (lhs.getD m none) = some newId
  other : ∀ m, m < h → ∀ p, p ≠ some newId → p ≠ lhs.getD m none →
    f.nextOf m p = t.nextOf m p

theorem spliceLoop_reads {α : Type} [Inhabited α] {lhs : List (Option Nat)} {newId : Nat} :
    ∀ (h : Nat) (t : skiplist α),
      (∀ m, m < h → ∀ i, lhs.getD m none = some i →
        i ≠ newId ∧ i < t.arena.length ∧ m < t.heightOf i) →
      (∀ m, m < h → lhs.getD m none = none → m < t.mHead.length) →
      newId < t.arena.length →
      (∀ m, m < h → m < t.heightOf newId) →
      SpliceReads t (spliceLoop t lhs newId h) lhs newId h
  | 0, t, _, _, _, _ =>
      ⟨rfl, rfl, rfl, rfl, fun _ => rfl, fun _ => rfl, fun _ _ _ => rfl,
        fun m hm => by omega, fun m hm => by omega, fun m hm => by omega⟩
  | h + 1, t, hent, hhead, hnew, hnh => by
      have hself := Nat.lt_succ_self h
      set e := lhs.getD h none with he
      set w := t.nextOf h e with hwdef
      set t1 := t.setPtr h (some newId) w with ht1
      set t2 := t1.setPtr h e (some newId) with ht2
      show SpliceReads t (spliceLoop t2 lhs newId h) lhs newId (h + 1)
      have hne_e_new : (some newId : Option Nat) ≠ e := by
        cases hee : e with
        | none => simp
        | some i =>
            have := (hent h hself i (he ▸ hee)).1
            simp
            omega
      -- facts about the two writes
      have F3 : ∀ m, m ≠ h → ∀ p, t2.nextOf m p = t.nextOf m p := by
        intro m hm p
        rw [ht2, nextOf_setPtr_ne_level _ _ _ _ hm, ht1, nextOf_setPtr_ne_level _ _ _ _ hm]
      have F4 : t2.nextOf h (some newId) = w := by
        rw [ht2, nextOf_setPtr_other _ _ _ _ hne_e_new]
        rw [ht1]
        show nodeNext (t.setPtr h (some newId) w).arena h newId = w
        exact nodeNext_setPtr_self t h w newId hnew (hnh h hself)
      have F5 : t2.nextOf h e = some newId := by
        rw [ht2]
        cases hee : e with
        | none =>
            show ((t1.setPtr h none (some newId)).mHead).getD h none = some newId
            refine getD_set_self _ _ _ _ ?_
            rw [ht1, setPtr_mHead_length]
            exact hhead h hself (by rw [← he]; exact hee)
        | some i =>
            obtain ⟨hi1, hi2, hi3⟩ := hent h hself i (by rw [← he]; exact hee)
            show nodeNext (t1.setPtr h (some i) (some newId)).arena h i = some newId
            refine nodeNext_setPtr_self t1 h (some newId) i ?_ ?_
            · rw [ht1, setPtr_arena_length]
              exact hi2
            · rw [ht1, setPtr_heightOf]
              exact hi3
      have F6 : ∀ p, p ≠ some newId → p ≠ e → t2.nextOf h p = t.nextOf h p := by
        intro p hp1 hp2
        rw [ht2, nextOf_setPtr_other _ _ _ _ hp2, ht1, nextOf_setPtr_other _ _ _ _ hp1]
      have ihyp1 : ∀ m, m < h → ∀ i, lhs.getD m none = some i →
          i ≠ newId ∧ i < t2.arena.length ∧ m < t2.heightOf i := by
        intro m hm i hi
        obtain ⟨h1, h2, h3⟩ := hent m (Nat.lt_succ_of_lt hm) i hi
        refine ⟨h1, ?_, ?_⟩
        · rw [ht2, setPtr_arena_length, ht1, setPtr_arena_length]
          exact h2
        · rw [ht2, setPtr_heightOf, ht1, setPtr_heightOf]
          exact h3
      have ihyp2 : ∀ m, m < h → lhs.getD m none = none → m < t2.mHead.length := by
        intro m hm hn
        rw [ht2, setPtr_mHead_length, ht1, setPtr_mHead_length]
        exact hhead m (Nat.lt_succ_of_lt hm) hn
      have ihyp3 : newId < t2.arena.length := by
        rw [ht2, setPtr_arena_length, ht1, setPtr_arena_length]
        exact hnew
      have ihyp4 : ∀ m, m < h → m < t2.heightOf newId := by
        intro m hm
        rw [ht2, setPtr_heightOf, ht1, setPtr_heightOf]
        exact hnh m (Nat.lt_succ_of_lt hm)
      have IH := spliceLoop_reads h t2 ihyp1 ihyp2 ihyp3 ihyp4
      have ht2keys : ∀ i, t2.keyOf i = t.keyOf i := by
        intro i
        rw [ht2, setPtr_keyOf, ht1, setPtr_keyOf]
      have ht2hts : ∀ i, t2.heightOf i = t.heightOf i := by
        intro i
        rw [ht2, setPtr_heightOf, ht1, setPtr_heightOf]
      refine ⟨?_, ?_, ?_, ?_, ?_, ?_, ?_, ?_, ?_, ?_⟩
      · rw [IH.comp, ht2, setPtr_mCompare, ht1, setPtr_mCompare]
      · rw [IH.freed, ht2, setPtr_freed, ht1, setPtr_freed]
      · rw [IH.alen, ht2, setPtr_arena_length, ht1, setPtr_arena_length]
      · rw [IH.hlen, ht2, setPtr_mHead_length, ht1, setPtr_mHead_length]
      · intro i
        rw [IH.keys i, ht2keys i]
      · intro i
        rw [IH.hts i, ht2hts i]
      · intro m hm p
        rw [IH.high m (by omega) p, F3 m (by omega) p]
      · intro m hm
        rcases Nat.lt_or_ge m h with hmh | hmh
        · rw [IH.newPtr m hmh, F3 m (by omega)]
        · have hmeq : m = h := by omega
          subst hmeq
          rw [IH.high m (Nat.le_refl m) (some newId), F4]
      · intro m hm
        rcases Nat.lt_or_ge m h with hmh | hmh
        · exact IH.entry m hmh
        · have hmeq : m = h := by omega
          subst hmeq
          rw [IH.high m (Nat.le_refl m), F5]
      · intro m hm p hp1 hp2
        rcases Nat.lt_or_ge m h with hmh | hmh
        · rw [IH.other m hmh p hp1 hp2, F3 m (by omega) p]
        · have hmeq : m = h := by omega
          subst hmeq
          rw [IH.high m (Nat.le_refl m) p, F6 p hp1 hp2]

/-! Field preservation through the loops and the operations: keys, heights,
the allocation count, and the deallocation record are never silently
changed. -/

theorem mem_of_getLast? {γ : Type} {xs : List γ} {x : γ} (h : xs.getLast? = some x) :
    x ∈ xs := by
  rcases xs.eq_nil_or_concat with rfl | ⟨ys, y, he⟩
  · cases h
  · subst he
    rw [List.concat_eq_append] at h ⊢
    rw [List.getLast?_concat] at h
    cases h
    simp

theorem spliceLoop_keyOf {α : Type} [Inhabited α] {lhs : List (Option Nat)} {newId : Nat} :
    ∀ (h : Nat) (t : skiplist α) (i : Nat), (spliceLoop t lhs newId h).keyOf i = t.keyOf i
  | 0, t, i => rfl
  | h + 1, t, i => by
      show (spliceLoop ((t.setPtr h (some newId) (t.nextOf h (lhs.getD h none))).setPtr h
        (lhs.getD h none) (some newId)) lhs newId h).keyOf i = t.keyOf i
      rw [spliceLoop_keyOf h]
      simp

theorem spliceLoop_heightOf {α : Type} [Inhabited α] {lhs : List (Option Nat)} {newId : Nat} :
    ∀ (h : Nat) (t : skiplist α) (i : Nat), (spliceLoop t lhs newId h).heightOf i = t.heightOf i
  | 0, t, i => rfl
  | h + 1, t, i => by
      show (spliceLoop ((t.setPtr h (some newId) (t.nextOf h (lhs.getD h none))).setPtr h
        (lhs.getD h none) (some newId)) lhs newId h).heightOf i = t.heightOf i
      rw [spliceLoop_heightOf h]
      simp

theorem spliceLoop_freed {α : Type} [Inhabited α] {lhs : List (Option Nat)} {newId : Nat} :
    ∀ (h : Nat) (t : skiplist α), (spliceLoop t lhs newId h).freed = t.freed
  | 0, t => rfl
  | h + 1, t => by
      show (spliceLoop ((t.setPtr h (some newId) (t.nextOf h (lhs.getD h none))).setPtr h
        (lhs.getD h none) (some newId)) lhs newId h).freed = t.freed
      rw [spliceLoop_freed h]
      simp

theorem spliceLoop_arena_length {α : Type} [Inhabited α] {lhs : List (Option Nat)}
    {newId : Nat} :
    ∀ (h : Nat) (t : skiplist α), (spliceLoop t lhs newId h).arena.length = t.arena.length
  | 0, t => rfl
  | h + 1, t => by
      show (spliceLoop ((t.setPtr h (some newId) (t.nextOf h (lhs.getD h none))).setPtr h
        (lhs.getD h none) (some newId)) lhs newId h).arena.length = t.arena.length
      rw [spliceLoop_arena_length h]
      simp

theorem eraseLoop_keyOf {α : Type} [Inhabited α] {lhs : List (Option Nat)} {idx : Nat} :
    ∀ (h : Nat) (t : skiplist α) (i : Nat), (eraseLoop t lhs idx h).keyOf i = t.keyOf i
  | 0, t, i => rfl
  | h + 1, t, i => by
      show (eraseLoop (t.setPtr h (lhs.getD h none) ((t.getNode idx).mRhs.getD h none))
        lhs idx h).keyOf i = t.keyOf i
      rw [eraseLoop_keyOf h]
      simp

theorem eraseLoop_heightOf {α : Type} [Inhabited α] {lhs : List (Option Nat)} {idx : Nat} :
    ∀ (h : Nat) (t : skiplist α) (i : Nat), (eraseLoop t lhs idx h).heightOf i = t.heightOf i
  | 0, t, i => rfl
  | h + 1, t, i => by
      show (eraseLoop (t.setPtr h (lhs.getD h none) ((t.getNode idx).mRhs.getD h none))
        lhs idx h).heightOf i = t.heightOf i
      rw [eraseLoop_heightOf h]
      simp

theorem eraseLoop_freed {α : Type} [Inhabited α] {lhs : List (Option Nat)} {idx : Nat} :
    ∀ (h : Nat) (t : skiplist α), (eraseLoop t lhs idx h).freed = t.freed
  | 0, t => rfl
  | h + 1, t => by
      show (eraseLoop (t.setPtr h (lhs.getD h none) ((t.getNode idx).mRhs.getD h none))
        lhs idx h).freed = t.freed
      rw [eraseLoop_freed h]
      simp

theorem eraseLoop_arena_length {α : Type} [Inhabited α] {lhs : List (Option Nat)} {idx : Nat} :
    ∀ (h : Nat) (t : skiplist α), (eraseLoop t lhs idx h).arena.length = t.arena.length
  | 0, t => rfl
  | h + 1, t => by
      show (eraseLoop (t.setPtr h (lhs.getD h none) ((t.getNode idx).mRhs.getD h none))
        lhs idx h).arena.length = t.arena.length
      rw [eraseLoop_arena_length h]
      simp

theorem insertH_keyOf_lt {α : Type} [Inhabited α] (s : skiplist α) (key : α) (height : Nat)
    {i : Nat} (h : i < s.arena.length) : (s.insertH key height).1.keyOf i = s.keyOf i := by
  show (spliceLoop (s.allocNode key height) _ _ _).keyOf i = s.keyOf i
  rw [spliceLoop_keyOf]
  exact keyOf_allocNode_lt s key height h

theorem insertH_keyOf_new {α : Type} [Inhabited α] (s : skiplist α) (key : α) (height : Nat) :
    (s.insertH key height).1.keyOf s.arena.length = key := by
  show (spliceLoop (s.allocNode key height) _ _ _).keyOf s.arena.length = key
  rw [spliceLoop_keyOf]
  exact keyOf_allocNode_self s key height

theorem insertH_heightOf_lt {α : Type} [Inhabited α] (s : skiplist α) (key : α) (height : Nat)
    {i : Nat} (h : i < s.arena.length) :
    (s.insertH key height).1.heightOf i = s.heightOf i := by
  show (spliceLoop (s.allocNode key height) _ _ _).heightOf i = s.heightOf i
  rw [spliceLoop_heightOf]
  exact heightOf_allocNode_lt s key height h

theorem insertH_heightOf_new {α : Type} [Inhabited α] (s : skiplist α) (key : α)
    (height : Nat) : (s.insertH key height).1.heightOf s.arena.length = height := by
  show (spliceLoop (s.allocNode key height) _ _ _).heightOf s.arena.length = height
  rw [spliceLoop_heightOf]
  exact heightOf_allocNode_self s key height

theorem insertH_freed {α : Type} [Inhabited α] (s : skiplist α) (key : α) (height : Nat) :
    (s.insertH key height).1.freed = s.freed := by
  show (spliceLoop (s.allocNode key height) _ _ _).freed = s.freed
  rw [spliceLoop_freed]
  rfl

theorem insertH_arena_length {α : Type} [Inhabited α] (s : skiplist α) (key : α)
    (height : Nat) : (s.insertH key height).1.arena.length = s.arena.length + 1 := by
  show (spliceLoop (s.allocNode key height) _ _ _).arena.length = s.arena.length + 1
  rw [spliceLoop_arena_length]
  simp

theorem erase_keyOf {α : Type} [Inhabited α] (s : skiplist α) (idx i : Nat) :
    (s.erase idx).1.keyOf i = s.keyOf i := by
  show ({ eraseLoop s _ idx _ with freed := _ } : skiplist α).keyOf i = s.keyOf i
  rw [show ({ eraseLoop s (s.discoverLinksToUpdate (s.getNode idx).mKey
      (s.getNode idx).mRhs.length) idx (s.getNode idx).mRhs.length with
      freed := idx :: (eraseLoop s (s.discoverLinksToUpdate (s.getNode idx).mKey
      (s.getNode idx).mRhs.length) idx (s.getNode idx).mRhs.length).freed } : skiplist α).keyOf
    = (eraseLoop s (s.discoverLinksToUpdate (s.getNode idx).mKey
      (s.getNode idx).mRhs.length) idx (s.getNode idx).mRhs.length).keyOf from rfl]
  rw [eraseLoop_keyOf]

theorem erase_heightOf {α : Type} [Inhabited α] (s : skiplist α) (idx i : Nat) :
    (s.erase idx).1.heightOf i = s.heightOf i := by
  show ({ eraseLoop s _ idx _ with freed := _ } : skiplist α).heightOf i = s.heightOf i
  rw [show ({ eraseLoop s (s.discoverLinksToUpdate (s.getNode idx).mKey
      (s.getNode idx).mRhs.length) idx (s.getNode idx).mRhs.length with
      freed := idx :: (eraseLoop s (s.discoverLinksToUpdate (s.getNode idx).mKey
      (s.getNode idx).mRhs.length) idx (s.getNode idx).mRhs.length).freed } : skiplist α).heightOf
    = (eraseLoop s (s.discoverLinksToUpdate (s.getNode idx).mKey
      (s.getNode idx).mRhs.length) idx (s.getNode idx).mRhs.length).heightOf from rfl]
  rw [eraseLoop_heightOf]

theorem erase_arena_length {α : Type} [Inhabited α] (s : skiplist α) (idx : Nat) :
    (s.erase idx).1.arena.length = s.arena.length := by
  show ({ eraseLoop s _ idx _ with freed := _ } : skiplist α).arena.length = s.arena.length
  exact eraseLoop_arena_length _ s

theorem erase_freed {α : Type} [Inhabited α] (s : skiplist α) (idx : Nat) :
    (s.erase idx).1.freed = idx :: s.freed := by
  show ({ eraseLoop s _ idx _ with freed := idx :: _ } : skiplist α).freed = idx :: s.freed
  rw [show ({ eraseLoop s (s.discoverLinksToUpdate (s.getNode idx).mKey
      (s.getNode idx).mRhs.length) idx (s.getNode idx).mRhs.length with
      freed := idx :: (eraseLoop s (s.discoverLinksToUpdate (s.getNode idx).mKey
      (s.getNode idx).mRhs.length) idx (s.getNode idx).mRhs.length).freed } : skiplist α).freed
    = idx :: (eraseLoop s (s.discoverLinksToUpdate (s.getNode idx).mKey
      (s.getNode idx).mRhs.length) idx (s.getNode idx).mRhs.length).freed from rfl]
  rw [eraseLoop_freed]

/-- The main insert effect: inserting `key` with a height in range into a
well-formed state whose contents split (in order) into keys preceding `key`
(`P`) and keys not preceding it (`Q`) yields a well-formed state whose
contents are `P`, then the new node, then `Q`. -/
theorem insertH_wf {α : Type} [Inhabited α] {s : skiplist α} {ids P Q : List Nat}
    (hwf : WF s ids) (hswo : IsSWO s.mCompare)
    (hids : ids = P ++ Q) (key : α)
    (hP : ∀ x ∈ P, s.mCompare (s.keyOf x) key = true)
    (hQ : ∀ x ∈ Q, s.mCompare (s.keyOf x) key = false)
    {height : Nat} (hh1 : 1 ≤ height) (hh2 : height ≤ MAX_HEIGHT) :
    WF (s.insertH key height).1 (P ++ s.arena.length :: Q) := by
  have hPmem : ∀ x ∈ P, x ∈ ids := fun x hx => hids ▸ List.mem_append_left Q hx
  have hQmem : ∀ x ∈ Q, x ∈ ids := fun x hx => hids ▸ List.mem_append_right P hx
  have hPlt : ∀ x ∈ P, x < s.arena.length := fun x hx => hwf.mem_lt x (hPmem x hx)
  have hQlt : ∀ x ∈ Q, x < s.arena.length := fun x hx => hwf.mem_lt x (hQmem x hx)
  have hndPQ : (P ++ Q).Nodup := hids ▸ hwf.nodup
  obtain ⟨hndP, hndQ, hdisj⟩ := List.nodup_append.mp hndPQ
  have hlhs := discover_spec hwf hids key hP hQ hh2
  have hent : ∀ m, m < height → ∀ i,
      (s.discoverLinksToUpdate key height).getD m none = some i →
      i ≠ s.arena.length ∧ i < (s.allocNode key height).arena.length ∧
        m < (s.allocNode key height).heightOf i := by
    intro m hm i hi
    rw [hlhs m hm] at hi
    have hmem := mem_of_getLast? hi
    have hmemP := (List.mem_filter.mp hmem).1
    have hht := (List.mem_filter.mp hmem).2
    have hlt := hPlt i hmemP
    refine ⟨by omega, by simp; omega, ?_⟩
    rw [heightOf_allocNode_lt s key height hlt]
    simpa using hht
  have hhead : ∀ m, m < height →
      (s.discoverLinksToUpdate key height).getD m none = none →
      m < (s.allocNode key height).mHead.length := by
    intro m hm _
    show m < s.mHead.length
    rw [hwf.head_len]
    unfold MAX_HEIGHT at hh2 ⊢
    omega
  have R := spliceLoop_reads height (s.allocNode key height) hent hhead (by simp)
    (by intro m hm; rw [heightOf_allocNode_self]; exact hm)
  show WF (spliceLoop (s.allocNode key height) (s.discoverLinksToUpdate key height)
    s.arena.length height) (P ++ s.arena.length :: Q)
  set f := spliceLoop (s.allocNode key height) (s.discoverLinksToUpdate key height)
    s.arena.length height with hf
  have hfkey_lt : ∀ i, i < s.arena.length → f.keyOf i = s.keyOf i := by
    intro i hi
    rw [R.keys i, keyOf_allocNode_lt s key height hi]
  have hfkey_new : f.keyOf s.arena.length = key := by
    rw [R.keys _, keyOf_allocNode_self]
  have hfht_lt : ∀ i, i < s.arena.length → f.heightOf i = s.heightOf i := by
    intro i hi
    rw [R.hts i, heightOf_allocNode_lt s key height hi]
  have hfht_new : f.heightOf s.arena.length = height := by
    rw [R.hts _, heightOf_allocNode_self]
  have hfcomp : f.mCompare = s.mCompare := by rw [R.comp]; rfl
  have hffreed : f.freed = s.freed := by rw [R.freed]; rfl
  have hfalen : f.arena.length = s.arena.length + 1 := by rw [R.alen]; simp
  have hfhlen : f.mHead.length = MAX_HEIGHT := by
    rw [R.hlen]
    exact hwf.head_len
  have mkchain : ∀ l, l < height →
      IsSeg f.arena l (headSlot f l)
        (levelIds s P l ++ s.arena.length :: levelIds s Q l) none := by
    intro l hl
    have hl10 : l < MAX_HEIGHT := by omega
    have hch : IsSeg s.arena l (s.nextOf l none)
        (levelIds s P l ++ levelIds s Q l) none := by
      have hc := hwf.chains l hl10
      rw [show levelIds s ids l = levelIds s P l ++ levelIds s Q l from by
        rw [hids, levelIds_append]] at hc
      exact hc
    obtain ⟨q, hPLseg, hQLseg⟩ := hch.append_decomp
    have hq : q = s.nextOf l (levelIds s P l).getLast? := by
      have hx := seg_exit_next hPLseg
      rwa [Option.or_none] at hx
    have hb : f.nextOf l (levelIds s P l).getLast? = some s.arena.length := by
      have hx := R.entry l hl
      rwa [hlhs l hl] at hx
    have ha : f.nextOf l (some s.arena.length) = q := by
      have h1 := R.newPtr l hl
      rw [hlhs l hl] at h1
      rw [h1, nextOf_allocNode s key height ?tg l]
      · exact hq.symm
      case tg =>
        intro j hj
        exact hPlt j (List.mem_filter.mp (mem_of_getLast? hj)).1
    have hQtrans : ∀ x ∈ levelIds s Q l, nodeNext f.arena l x = nodeNext s.arena l x := by
      intro x hx
      have hxQ := (List.mem_filter.mp hx).1
      have hxlt := hQlt x hxQ
      have h1 : (some x : Option Nat) ≠ some s.arena.length := by simp; omega
      have h2 : (some x : Option Nat) ≠ (s.discoverLinksToUpdate key height).getD l none := by
        rw [hlhs l hl]
        cases hgl : (levelIds s P l).getLast? with
        | none => simp
        | some y =>
            have hyP := (List.mem_filter.mp (mem_of_getLast? hgl)).1
            simp only [ne_eq, Option.some.injEq]
            intro hxy
            exact absurd (hxy ▸ hxQ) (hdisj hyP)
      have h3 := R.other l hl (some x) h1 h2
      show f.nextOf l (some x) = nodeNext s.arena l x
      rw [h3]
      exact nodeNext_allocNode_lt s key height hxlt l
    have hseg3 : IsSeg f.arena l q (levelIds s Q l) none := seg_congr hQLseg hQtrans
    have hseg2 : IsSeg f.arena l (some s.arena.length)
        (s.arena.length :: levelIds s Q l) none := by
      refine IsSeg.cons ?_
      have ha2 : nodeNext f.arena l s.arena.length = q := ha
      rw [ha2]
      exact hseg3
    rcases (levelIds s P l).eq_nil_or_concat with hPL | ⟨B2, b, hPL⟩
    · have hheadf : headSlot f l = some s.arena.length := by
        have hx := hb
        rw [hPL] at hx
        exact hx
      rw [hPL]
      simp only [List.nil_append]
      rw [show headSlot f l = some s.arena.length from hheadf]
      exact hseg2
    · rw [List.concat_eq_append] at hPL
      have hndPL : (B2 ++ [b]).Nodup := by
        rw [← hPL]
        exact hndP.filter _
      obtain ⟨-, -, hdisjB⟩ := List.nodup_append.mp hndPL
      have hblast : nodeNext f.arena l b = some s.arena.length := by
        have hx := hb
        rw [hPL, List.getLast?_concat] at hx
        exact hx
      have hmids : ∀ x ∈ B2, nodeNext f.arena l x = nodeNext s.arena l x := by
        intro x hx
        have hxP : x ∈ P := by
          have hx2 : x ∈ levelIds s P l := by
            rw [hPL]
            exact List.mem_append_left _ hx
          exact (List.mem_filter.mp hx2).1
        have hxlt := hPlt x hxP
        have h1 : (some x : Option Nat) ≠ some s.arena.length := by simp; omega
        have h2 : (some x : Option Nat)
            ≠ (s.discoverLinksToUpdate key height).getD l none := by
          rw [hlhs l hl, hPL, List.getLast?_concat]
          simp only [ne_eq, Option.some.injEq]
          intro hxb
          exact (hdisjB hx) (by simp [hxb])
        have h3 := R.other l hl (some x) h1 h2
        show f.nextOf l (some x) = nodeNext s.arena l x
        rw [h3]
        exact nodeNext_allocNode_lt s key height hxlt l
      rw [hPL] at hPLseg
      have hseg1 : IsSeg f.arena l (s.nextOf l none) (B2 ++ [b]) (some s.arena.length) :=
        seg_retarget (some s.arena.length) B2 b hPLseg hmids hblast
      have hheadf : headSlot f l = headSlot s l := by
        have h2 : (none : Option Nat)
            ≠ (s.discoverLinksToUpdate key height).getD l none := by
          rw [hlhs l hl, hPL, List.getLast?_concat]
          simp
        have h3 := R.other l hl none (by simp) h2
        show f.nextOf l none = s.nextOf l none
        rw [h3]
        rfl
      rw [hPL]
      show IsSeg f.arena l (headSlot f l)
        ((B2 ++ [b]) ++ s.arena.length :: levelIds s Q l) none
      rw [hheadf]
      exact hseg1.append hseg2
  have keepchain : ∀ l, height ≤ l → l < MAX_HEIGHT →
      IsSeg f.arena l (headSlot f l) (levelIds s ids l) none := by
    intro l hge hl10
    have hch := hwf.chains l hl10
    have htrans : ∀ x ∈ levelIds s ids l, nodeNext f.arena l x = nodeNext s.arena l x := by
      intro x hx
      have hxids := (List.mem_filter.mp hx).1
      have hxlt := hwf.mem_lt x hxids
      have h3 := R.high l hge (some x)
      show f.nextOf l (some x) = nodeNext s.arena l x
      rw [h3]
      exact nodeNext_allocNode_lt s key height hxlt l
    have hheadf : headSlot f l = headSlot s l := by
      have h3 := R.high l hge none
      show f.nextOf l none = s.nextOf l none
      rw [h3]
      rfl
    rw [hheadf]
    exact seg_congr hch htrans
  refine ⟨hfhlen, ?_, ?_, ?_, ?_, ?_, ?_, ?_, ?_⟩
  · -- chains
    intro l hl10
    have hlevP : levelIds f P l = levelIds s P l :=
      levelIds_congr (fun x hx => hfht_lt x (hPlt x hx)) l
    have hlevQ : levelIds f Q l = levelIds s Q l :=
      levelIds_congr (fun x hx => hfht_lt x (hQlt x hx)) l
    have hlev : levelIds f (P ++ s.arena.length :: Q) l
        = levelIds s P l ++ (if l < height then
            s.arena.length :: levelIds s Q l else levelIds s Q l) := by
      rw [levelIds_append, hlevP]
      congr 1
      show List.filter _ (s.arena.length :: Q) = _
      rw [List.filter_cons]
      by_cases hlh : l < height
      · simp only [show decide (l < f.heightOf s.arena.length) = true from by
          rw [hfht_new]; simpa using hlh, if_true, hlh]
        rw [show List.filter (fun i => decide (l < f.heightOf i)) Q = levelIds f Q l from rfl,
          hlevQ]
      · simp only [show decide (l < f.heightOf s.arena.length) = false from by
          rw [hfht_new]; simpa using hlh, hlh, Bool.false_eq_true, if_false]
        rw [show List.filter (fun i => decide (l < f.heightOf i)) Q = levelIds f Q l from rfl,
          hlevQ]
    rw [hlev]
    by_cases hlh : l < height
    · simp only [hlh, if_true]
      exact mkchain l hlh
    · simp only [hlh, if_false]
      have hx := keepchain l (by omega) hl10
      rw [show levelIds s ids l = levelIds s P l ++ levelIds s Q l from by
        rw [hids, levelIds_append]] at hx
      exact hx
  · -- nodup
    rw [List.nodup_middle, List.nodup_cons]
    refine ⟨?_, hndPQ⟩
    intro hmem
    have := hwf.mem_lt _ (hids ▸ hmem)
    omega
  · -- mem_lt
    intro i hi
    rw [hfalen]
    rcases List.mem_append.mp hi with hiP | hiQ
    · have := hPlt i hiP
      omega
    · rcases List.mem_cons.mp hiQ with rfl | hiQ
      · omega
      · have := hQlt i hiQ
        omega
  · -- mem_live
    intro i hi
    rw [hffreed]
    rcases List.mem_append.mp hi with hiP | hiQ
    · exact hwf.mem_live i (hPmem i hiP)
    · rcases List.mem_cons.mp hiQ with rfl | hiQ
      · intro hmem
        have := hwf.freed_lt _ hmem
        omega
      · exact hwf.mem_live i (hQmem i hiQ)
  · -- freed_lt
    intro i hi
    rw [hffreed] at hi
    rw [hfalen]
    have := hwf.freed_lt i hi
    omega
  · -- complete
    intro i hilen hifreed
    rw [hfalen] at hilen
    rw [hffreed] at hifreed
    rcases Nat.lt_or_ge i s.arena.length with hlt | hge
    · have hmem := hwf.complete i hlt hifreed
      rw [hids] at hmem
      rcases List.mem_append.mp hmem with hiP | hiQ
      · exact List.mem_append_left _ hiP
      · exact List.mem_append_right _ (List.mem_cons_of_mem _ hiQ)
    · have : i = s.arena.length := by omega
      subst this
      exact List.mem_append_right _ (List.mem_cons_self _ _)
  · -- hbound
    intro i hi
    rcases List.mem_append.mp hi with hiP | hiQ
    · rw [hfht_lt i (hPlt i hiP)]
      exact hwf.hbound i (hPmem i hiP)
    · rcases List.mem_cons.mp hiQ with rfl | hiQ
      · rw [hfht_new]
        exact ⟨hh1, hh2⟩
      · rw [hfht_lt i (hQlt i hiQ)]
        exact hwf.hbound i (hQmem i hiQ)
  · -- sorted
    have hpw := hwf.sorted
    rw [hids] at hpw
    obtain ⟨pwP, pwQ, crossPQ⟩ := List.pairwise_append.mp hpw
    refine List.pairwise_append.mpr ⟨?_, ?_, ?_⟩
    · refine pwP.imp_of_mem ?_
      intro a b ha hb hr
      rw [hfcomp, hfkey_lt a (hPlt a ha), hfkey_lt b (hPlt b hb)]
      exact hr
    · rw [List.pairwise_cons]
      refine ⟨?_, ?_⟩
      · intro b hb
        rw [hfcomp, hfkey_lt b (hQlt b hb), hfkey_new]
        exact hQ b hb
      · refine pwQ.imp_of_mem ?_
        intro a b ha hb hr
        rw [hfcomp, hfkey_lt a (hQlt a ha), hfkey_lt b (hQlt b hb)]
        exact hr
    · intro a ha b hb
      rcases List.mem_cons.mp hb with rfl | hbQ
      · rw [hfcomp, hfkey_new, hfkey_lt a (hPlt a ha)]
        exact hswo.asymm _ _ (hP a ha)
      · rw [hfcomp, hfkey_lt a (hPlt a ha), hfkey_lt b (hQlt b hbQ)]
        exact crossPQ a ha b hbQ

/-! What erase's unlink loop does to every readable pointer. -/

/-- Reads of the state after `eraseLoop t lhs idx h`: levels at or above `h`
and pointers other than the used buffer entries are untouched; at each level
below `h` the entry is re-pointed at the erased node's own neighbour. -/
structure EraseReads {α : Type} [Inhabited α] (t f : skiplist α)
    (lhs : List (Option Nat)) (idx h : Nat) : Prop where
  comp : f.mCompare = t.mCompare
  freed : f.freed = t.freed
  alen : f.arena.length = t.arena.length
  hlen : f.mHead.length = t.mHead.length
  keys : ∀ i, f.keyOf i = t.keyOf i
  hts : ∀ i, f.heightOf i = t.heightOf i
  high : ∀ m, h ≤ m → ∀ p, f.nextOf m p = t.nextOf m p
  entry : ∀ m, m < h → f.nextOf m (lhs.getD m none) = t.nextOf m (some idx)
  other : ∀ m, m < h → ∀ p, p ≠ lhs.getD m none → f.nextOf m p = t.nextOf m p

theorem eraseLoop_reads {α : Type} [Inhabited α] {lhs : List (Option Nat)} {idx : Nat} :
    ∀ (h : Nat) (t : skiplist α),
      (∀ m, m < h → ∀ i, lhs.getD m none = some i →
        i ≠ idx ∧ i < t.arena.length ∧ m < t.heightOf i) →
      (∀ m, m < h → lhs.getD m none = none → m < t.mHead.length) →
      EraseReads t (eraseLoop t lhs idx h) lhs idx h
  | 0, t, _, _ =>
      ⟨rfl, rfl, rfl, rfl, fun _ => rfl, fun _ => rfl, fun _ _ _ => rfl,
        fun m hm => by omega, fun m hm => by omega⟩
  | h + 1, t, hent, hhead => by
      have hself := Nat.lt_succ_self h
      set e := lhs.getD h none with he
      set w := (t.getNode idx).mRhs.getD h none with hwdef
      set t1 := t.setPtr h e w with ht1
      show EraseReads t (eraseLoop t1 lhs idx h) lhs idx (h + 1)
      have F3 : ∀ m, m ≠ h → ∀ p, t1.nextOf m p = t.nextOf m p := by
        intro m hm p
        rw [ht1, nextOf_setPtr_ne_level _ _ _ _ hm]
      have F5 : t1.nextOf h e = w := by
        rw [ht1]
        cases hee : e with
        | none =>
            show ((t.setPtr h none w).mHead).getD h none = w
            refine getD_set_self _ _ _ _ ?_
            exact hhead h hself (by rw [← he]; exact hee)
        | some i =>
            obtain ⟨hi1, hi2, hi3⟩ := hent h hself i (by rw [← he]; exact hee)
            show nodeNext (t.setPtr h (some i) w).arena h i = w
            exact nodeNext_setPtr_self t h w i hi2 hi3
      have F6 : ∀ p, p ≠ e → t1.nextOf h p = t.nextOf h p := by
        intro p hp
        rw [ht1, nextOf_setPtr_other _ _ _ _ hp]
      have ihyp1 : ∀ m, m < h → ∀ i, lhs.getD m none = some i →
          i ≠ idx ∧ i < t1.arena.length ∧ m < t1.heightOf i := by
        intro m hm i hi
        obtain ⟨h1, h2, h3⟩ := hent m (Nat.lt_succ_of_lt hm) i hi
        refine ⟨h1, ?_, ?_⟩
        · rw [ht1, setPtr_arena_length]
          exact h2
        · rw [ht1, setPtr_heightOf]
          exact h3
      have ihyp2 : ∀ m, m < h → lhs.getD m none = none → m < t1.mHead.length := by
        intro m hm hn
        rw [ht1, setPtr_mHead_length]
        exact hhead m (Nat.lt_succ_of_lt hm) hn
      have IH := eraseLoop_reads h t1 ihyp1 ihyp2
      have ht1keys : ∀ i, t1.keyOf i = t.keyOf i := by
        intro i
        rw [ht1, setPtr_keyOf]
      have ht1hts : ∀ i, t1.heightOf i = t.heightOf i := by
        intro i
        rw [ht1, setPtr_heightOf]
      refine ⟨?_, ?_, ?_, ?_, ?_, ?_, ?_, ?_, ?_⟩
      · rw [IH.comp, ht1, setPtr_mCompare]
      · rw [IH.freed, ht1, setPtr_freed]
      · rw [IH.alen, ht1, setPtr_arena_length]
      · rw [IH.hlen, ht1, setPtr_mHead_length]
      · intro i
        rw [IH.keys i, ht1keys i]
      · intro i
        rw [IH.hts i, ht1hts i]
      · intro m hm p
        rw [IH.high m (by omega) p, F3 m (by omega) p]
      · intro m hm
        rcases Nat.lt_or_ge m h with hmh | hmh
        · rw [IH.entry m hmh, F3 m (by omega)]
        · have hmeq : m = h := by omega
          subst hmeq
          rw [IH.high m (Nat.le_refl m), F5, hwdef]
          rfl
      · intro m hm p hp
        rcases Nat.lt_or_ge m h with hmh | hmh
        · rw [IH.other m hmh p hp, F3 m (by omega) p]
        · have hmeq : m = h := by omega
          subst hmeq
          rw [IH.high m (Nat.le_refl m) p, F6 p hp]

/-- The main erase effect: erasing a node all of whose traversal predecessors
have strictly smaller keys removes exactly that node, keeps everything else
in place, and returns the node's former level-0 successor. -/
theorem erase_wf {α : Type} [Inhabited α] {s : skiplist α} {ids B A : List Nat}
    (hwf : WF s ids) (hswo : IsSWO s.mCompare) {idx : Nat}
    (hids : ids = B ++ idx :: A)
    (hB : ∀ x ∈ B, s.mCompare (s.keyOf x) (s.keyOf idx) = true) :
    WF (s.erase idx).1 (B ++ A) ∧ (s.erase idx).2 = A.head? := by
  have hidx_mem : idx ∈ ids := by
    rw [hids]
    exact List.mem_append_right _ (List.mem_cons_self _ _)
  have hidx_lt : idx < s.arena.length := hwf.mem_lt idx hidx_mem
  have hh1 : 1 ≤ s.heightOf idx := (hwf.hbound idx hidx_mem).1
  have hh2 : s.heightOf idx ≤ MAX_HEIGHT := (hwf.hbound idx hidx_mem).2
  have hBmem : ∀ x ∈ B, x ∈ ids := fun x hx => hids ▸ List.mem_append_left _ hx
  have hAmem : ∀ x ∈ A, x ∈ ids := fun x hx =>
    hids ▸ List.mem_append_right _ (List.mem_cons_of_mem _ hx)
  have hBlt : ∀ x ∈ B, x < s.arena.length := fun x hx => hwf.mem_lt x (hBmem x hx)
  have hnd : (B ++ idx :: A).Nodup := hids ▸ hwf.nodup
  have hnd2 : (idx :: (B ++ A)).Nodup := List.nodup_middle.mp hnd
  have hidx_notBA : idx ∉ B ++ A := (List.nodup_cons.mp hnd2).1
  have hndBA : (B ++ A).Nodup := (List.nodup_cons.mp hnd2).2
  have hidx_notB : idx ∉ B := fun hmem => hidx_notBA (List.mem_append_left _ hmem)
  obtain ⟨hndB, hndIA, hdisj⟩ := List.nodup_append.mp hnd
  have hQ : ∀ x ∈ idx :: A, s.mCompare (s.keyOf x) (s.keyOf idx) = false := by
    intro x hx
    rcases List.mem_cons.mp hx with rfl | hxA
    · exact hswo.irrefl _
    · have hpw := hwf.sorted
      rw [hids] at hpw
      exact (List.pairwise_cons.mp (List.pairwise_append.mp hpw).2.1).1 x hxA
  have hlhs0 := discover_spec hwf hids (s.keyOf idx) hB hQ hh2
  have hent : ∀ m, m < s.heightOf idx → ∀ i,
      (s.discoverLinksToUpdate (s.keyOf idx) (s.heightOf idx)).getD m none = some i →
      i ≠ idx ∧ i < s.arena.length ∧ m < s.heightOf i := by
    intro m hm i hi
    rw [hlhs0 m hm] at hi
    have hmem := mem_of_getLast? hi
    have hmemB := (List.mem_filter.mp hmem).1
    have hht := (List.mem_filter.mp hmem).2
    refine ⟨?_, hBlt i hmemB, by simpa using hht⟩
    intro hieq
    exact hidx_notB (hieq ▸ hmemB)
  have hhead : ∀ m, m < s.heightOf idx →
      (s.discoverLinksToUpdate (s.keyOf idx) (s.heightOf idx)).getD m none = none →
      m < s.mHead.length := by
    intro m hm _
    rw [hwf.head_len]
    omega
  have R := eraseLoop_reads (s.heightOf idx) s hent hhead
  set f := eraseLoop s (s.discoverLinksToUpdate (s.keyOf idx) (s.heightOf idx))
    idx (s.heightOf idx) with hfdef
  have hlevcons : ∀ l, levelIds s (idx :: A) l =
      if l < s.heightOf idx then idx :: levelIds s A l else levelIds s A l := by
    intro l
    show List.filter _ (idx :: A) = _
    rw [List.filter_cons]
    by_cases hlh : l < s.heightOf idx
    · rw [if_pos hlh]
      simp only [show decide (l < s.heightOf idx) = true from by simpa using hlh, if_true]
      rfl
    · rw [if_neg hlh]
      simp only [show decide (l < s.heightOf idx) = false from by simpa using hlh,
        Bool.false_eq_true, if_false]
      rfl
  have hchains : ∀ l, l < MAX_HEIGHT →
      IsSeg f.arena l (headSlot f l) (levelIds s B l ++ levelIds s A l) none := by
    intro l hl10
    rcases Nat.lt_or_ge l (s.heightOf idx) with hlh | hlh
    · -- idx participates at this level: unlink it
      have hch : IsSeg s.arena l (s.nextOf l none)
          (levelIds s B l ++ idx :: levelIds s A l) none := by
        have hc := hwf.chains l hl10
        rw [show levelIds s ids l = levelIds s B l ++ idx :: levelIds s A l from by
          rw [hids, levelIds_append, hlevcons l, if_pos hlh]] at hc
        exact hc
      obtain ⟨q, hBL, hIA⟩ := hch.append_decomp
      obtain ⟨hq, hAseg⟩ := hIA.cons_inv
      have hentryF : f.nextOf l ((levelIds s B l).getLast?) = nodeNext s.arena l idx := by
        have hx := R.entry l hlh
        rw [hlhs0 l hlh] at hx
        exact hx
      have hAtrans : ∀ x ∈ levelIds s A l, nodeNext f.arena l x = nodeNext s.arena l x := by
        intro x hx
        have hxA := (List.mem_filter.mp hx).1
        have h2 : (some x : Option Nat)
            ≠ (s.discoverLinksToUpdate (s.keyOf idx) (s.heightOf idx)).getD l none := by
          rw [hlhs0 l hlh]
          cases hgl : (levelIds s B l).getLast? with
          | none => simp
          | some y =>
              have hyB := (List.mem_filter.mp (mem_of_getLast? hgl)).1
              simp only [ne_eq, Option.some.injEq]
              intro hxy
              exact (hdisj hyB) (hxy ▸ List.mem_cons_of_mem idx hxA)
        have h3 := R.other l hlh (some x) h2
        show f.nextOf l (some x) = nodeNext s.arena l x
        rw [h3]
        rfl
      have hAsegF : IsSeg f.arena l (nodeNext s.arena l idx) (levelIds s A l) none :=
        seg_congr hAseg hAtrans
      rcases (levelIds s B l).eq_nil_or_concat with hBL0 | ⟨B2, b, hBL0⟩
      · have hheadf : headSlot f l = nodeNext s.arena l idx := by
          have hx := hentryF
          rw [hBL0] at hx
          exact hx
        rw [hBL0, List.nil_append, hheadf]
        exact hAsegF
      · rw [List.concat_eq_append] at hBL0
        have hndBL : (B2 ++ [b]).Nodup := by
          rw [← hBL0]
          exact hndB.filter _
        obtain ⟨-, -, hdisjB2⟩ := List.nodup_append.mp hndBL
        have hblast : nodeNext f.arena l b = nodeNext s.arena l idx := by
          have hx := hentryF
          rw [hBL0, List.getLast?_concat] at hx
          exact hx
        have hmids : ∀ x ∈ B2, nodeNext f.arena l x = nodeNext s.arena l x := by
          intro x hx
          have h2 : (some x : Option Nat)
              ≠ (s.discoverLinksToUpdate (s.keyOf idx) (s.heightOf idx)).getD l none := by
            rw [hlhs0 l hlh, hBL0, List.getLast?_concat]
            simp only [ne_eq, Option.some.injEq]
            intro hxb
            exact (hdisjB2 hx) (by simp [hxb])
          have h3 := R.other l hlh (some x) h2
          show f.nextOf l (some x) = nodeNext s.arena l x
          rw [h3]
          rfl
        rw [hBL0] at hBL
        have hseg1 : IsSeg f.arena l (s.nextOf l none) (B2 ++ [b])
            (nodeNext s.arena l idx) :=
          seg_retarget (nodeNext s.arena l idx) B2 b hBL hmids hblast
        have hheadf : headSlot f l = headSlot s l := by
          have h2 : (none : Option Nat)
              ≠ (s.discoverLinksToUpdate (s.keyOf idx) (s.heightOf idx)).getD l none := by
            rw [hlhs0 l hlh, hBL0, List.getLast?_concat]
            simp
          have h3 := R.other l hlh none h2
          show f.nextOf l none = s.nextOf l none
          rw [h3]
        rw [hBL0]
        show IsSeg f.arena l (headSlot f l) ((B2 ++ [b]) ++ levelIds s A l) none
        rw [hheadf]
        exact hseg1.append hAsegF
    · -- idx absent at this level: the chain is untouched
      have hch := hwf.chains l hl10
      rw [show levelIds s ids l = levelIds s B l ++ levelIds s A l from by
        rw [hids, levelIds_append, hlevcons l, if_neg (by omega)]] at hch
      have htrans : ∀ x ∈ levelIds s B l ++ levelIds s A l,
          nodeNext f.arena l x = nodeNext s.arena l x := by
        intro x hx
        have h3 := R.high l (by omega) (some x)
        show f.nextOf l (some x) = nodeNext s.arena l x
        rw [h3]
        rfl
      have hheadf : headSlot f l = headSlot s l := by
        have h3 := R.high l (by omega) none
        show f.nextOf l none = s.nextOf l none
        rw [h3]
      rw [hheadf]
      exact seg_congr hch htrans
  refine ⟨?_, ?_⟩
  · show WF ({ f with freed := idx :: f.freed }) (B ++ A)
    refine ⟨?_, ?_, hndBA, ?_, ?_, ?_, ?_, ?_, ?_⟩
    · show f.mHead.length = MAX_HEIGHT
      rw [R.hlen, hwf.head_len]
    · intro l hl10
      have hlevg : levelIds ({ f with freed := idx :: f.freed } : skiplist α) (B ++ A) l
          = levelIds s B l ++ levelIds s A l := by
        rw [show levelIds ({ f with freed := idx :: f.freed } : skiplist α) (B ++ A) l
            = levelIds s (B ++ A) l from
          levelIds_congr (fun x _ => R.hts x) l, levelIds_append]
      rw [hlevg]
      show IsSeg f.arena l (headSlot f l) (levelIds s B l ++ levelIds s A l) none
      exact hchains l hl10
    · intro i hi
      show i < f.arena.length
      rw [R.alen]
      rcases List.mem_append.mp hi with h | h
      · exact hBlt i h
      · exact hwf.mem_lt i (hAmem i h)
    · intro i hi
      show i ∉ idx :: f.freed
      rw [R.freed]
      intro hmem
      rcases List.mem_cons.mp hmem with rfl | hmem
      · exact hidx_notBA hi
      · have hin : i ∈ ids := by
          rcases List.mem_append.mp hi with h | h
          · exact hBmem i h
          · exact hAmem i h
        exact hwf.mem_live i hin hmem
    · intro i hi
      have hi2 : i ∈ idx :: s.freed := by
        rw [show ({ f with freed := idx :: f.freed } : skiplist α).freed
          = idx :: f.freed from rfl, R.freed] at hi
        exact hi
      show i < f.arena.length
      rw [R.alen]
      rcases List.mem_cons.mp hi2 with rfl | hmem
      · exact hidx_lt
      · exact hwf.freed_lt i hmem
    · intro i hilen hifreed
      have hilen2 : i < s.arena.length := by
        rw [show ({ f with freed := idx :: f.freed } : skiplist α).arena.length
          = f.arena.length from rfl, R.alen] at hilen
        exact hilen
      have hif2 : i ∉ idx :: s.freed := by
        rw [show ({ f with freed := idx :: f.freed } : skiplist α).freed
          = idx :: f.freed from rfl, R.freed] at hifreed
        exact hifreed
      have hne : i ≠ idx := fun hei => hif2 (hei ▸ List.mem_cons_self _ _)
      have hnf : i ∉ s.freed := fun hm => hif2 (List.mem_cons_of_mem _ hm)
      have hmem := hwf.complete i hilen2 hnf
      rw [hids] at hmem
      rcases List.mem_append.mp hmem with h | h
      · exact List.mem_append_left _ h
      · rcases List.mem_cons.mp h with h2 | h2
        · exact absurd h2 hne
        · exact List.mem_append_right _ h2
    · intro i hi
      have hin : i ∈ ids := by
        rcases List.mem_append.mp hi with h | h
        · exact hBmem i h
        · exact hAmem i h
      show 1 ≤ f.heightOf i ∧ f.heightOf i ≤ MAX_HEIGHT
      rw [R.hts i]
      exact hwf.hbound i hin
    · have hsub : (B ++ A).Sublist ids := by
        rw [hids]
        exact List.Sublist.append_left (List.sublist_cons_self idx A) B
      have hpw := hwf.sorted.sublist hsub
      refine List.Pairwise.imp ?_ hpw
      intro a b hr
      show f.mCompare (f.keyOf b) (f.keyOf a) = false
      rw [R.comp, R.keys b, R.keys a]
      exact hr
  · -- the returned iterator: the erased node's former level-0 successor
    have h0lt : (0 : Nat) < s.heightOf idx := by omega
    have hpres : f.nextOf 0 (some idx) = s.nextOf 0 (some idx) := by
      refine R.other 0 h0lt (some idx) ?_
      rw [hlhs0 0 h0lt]
      cases hgl : (levelIds s B 0).getLast? with
      | none => simp
      | some y =>
          have hyB := (List.mem_filter.mp (mem_of_getLast? hgl)).1
          simp only [ne_eq, Option.some.injEq]
          intro hxy
          exact hidx_notB (hxy ▸ hyB)
    have hch := hwf.chains 0 (by decide)
    rw [hwf.level0, hids] at hch
    obtain ⟨q, hBseg, hIA⟩ := hch.append_decomp
    obtain ⟨hq, hA⟩ := hIA.cons_inv
    have hval : nodeNext s.arena 0 idx = A.head? := by
      cases A with
      | nil => exact hA.nil_inv
      | cons a A2 => exact hA.cons_inv.1
    show f.nextOf 0 (some idx) = A.head?
    rw [hpres]
    exact hval

/-! Well-formed states are closed under the operations: the good-reachability
layer.  A key splits a sorted content list into the strictly-smaller prefix
and the not-smaller suffix. -/

theorem sorted_dropWhile_nlt {α : Type} [Inhabited α] {s : skiplist α}
    (hswo : IsSWO s.mCompare) (key : α) :
    ∀ (ids : List Nat),
      ids.Pairwise (fun a b => s.mCompare (s.keyOf b) (s.keyOf a) = false) →
      ∀ x ∈ ids.dropWhile (fun i => s.mCompare (s.keyOf i) key),
        s.mCompare (s.keyOf x) key = false
  | [], _, x, hx => by cases hx
  | i :: ids, hpw, x, hx => by
      rw [List.dropWhile_cons] at hx
      by_cases hc : s.mCompare (s.keyOf i) key = true
      · rw [if_pos hc] at hx
        exact sorted_dropWhile_nlt hswo key ids (List.pairwise_cons.mp hpw).2 x hx
      · have h0 : s.mCompare (s.keyOf i) key = false := by
          cases h : s.mCompare (s.keyOf i) key
          · rfl
          · exact absurd h hc
        rw [if_neg (by rw [h0]; exact Bool.false_ne_true)] at hx
        rcases List.mem_cons.mp hx with rfl | hxid
        · exact h0
        · exact hswo.nlt_trans key (s.keyOf i) (s.keyOf x) h0
            ((List.pairwise_cons.mp hpw).1 x hxid)

/-- A sorted content list splits at any key into strictly-smaller and
not-smaller parts, in order. -/
theorem split_of_sorted {α : Type} [Inhabited α] {s : skiplist α} {ids : List Nat}
    (hwf : WF s ids) (hswo : IsSWO s.mCompare) (key : α) :
    ∃ P Q, ids = P ++ Q ∧ (∀ x ∈ P, s.mCompare (s.keyOf x) key = true) ∧
      (∀ x ∈ Q, s.mCompare (s.keyOf x) key = false) := by
  refine ⟨ids.takeWhile (fun i => s.mCompare (s.keyOf i) key),
          ids.dropWhile (fun i => s.mCompare (s.keyOf i) key),
          (List.takeWhile_append_dropWhile _ _).symm, ?_, ?_⟩
  · intro x hx
    exact @List.mem_takeWhile_imp Nat (fun i => s.mCompare (s.keyOf i) key) ids x hx
  · intro x hx
    exact sorted_dropWhile_nlt hswo key ids hwf.sorted x hx

/-- The empty container is well-formed with no contents. -/
theorem WF_empty {α : Type} [Inhabited α] (compare : α → α → Bool) :
    WF (emptySkiplist compare) [] := by
  refine ⟨List.length_replicate _ _, ?_, List.nodup_nil, ?_, ?_, ?_, ?_, ?_,
    List.Pairwise.nil⟩
  · intro l _
    show IsSeg (emptySkiplist compare).arena l (headSlot (emptySkiplist compare) l) [] none
    rw [show headSlot (emptySkiplist compare) l = none from getD_replicate_none _ _]
    exact IsSeg.nil none
  · intro i hi
    cases hi
  · intro i hi
    cases hi
  · intro i hi
    cases hi
  · intro i hlen _
    exact absurd hlen (by simp [emptySkiplist])
  · intro i hi
    cases hi

/-- Insert on a well-formed state: the new node lands exactly between the
strictly-smaller keys and the rest. -/
theorem insert_wf {α : Type} [Inhabited α] {s : skiplist α} {ids : List Nat}
    (hwf : WF s ids) (hswo : IsSWO s.mCompare) (key : α) (flips : List Bool) :
    ∃ P Q, ids = P ++ Q ∧
      (∀ x ∈ P, s.mCompare (s.keyOf x) key = true) ∧
      (∀ x ∈ Q, s.mCompare (s.keyOf x) key = false) ∧
      WF (s.insert key flips).1 (P ++ s.arena.length :: Q) := by
  obtain ⟨P, Q, hids, hP, hQ⟩ := split_of_sorted hwf hswo key
  obtain ⟨hh1, hh2⟩ := chooseHeight_bounds flips
  refine ⟨P, Q, hids, hP, hQ, ?_⟩
  show WF (s.insertH key (chooseHeight flips)).1 (P ++ s.arena.length :: Q)
  exact insertH_wf hwf hswo hids key hP hQ hh1 hh2

/-- A valid non-end erase target on which the by-key re-discovery inside
erase finds the right predecessors: an element all of whose traversal
predecessors have strictly smaller keys, i.e. the first node of its
comparator-equivalence class. -/
def skiplist.firstEq {α : Type} [Inhabited α] (s : skiplist α) (idx : Nat) : Prop :=
  ∃ B A, s.traverse = B ++ idx :: A ∧
    ∀ x ∈ B, s.mCompare (s.keyOf x) (s.keyOf idx) = true

/-- States reachable from an empty container with a strict-weak-order
comparator by inserts and by erases whose target is the first node of its
comparator-equivalence class. -/
inductive GoodReach {α : Type} [Inhabited α] : skiplist α → Prop
  | empty (compare : α → α → Bool) : IsSWO compare → GoodReach (emptySkiplist compare)
  | insert {s : skiplist α} (key : α) (flips : List Bool) :
      GoodReach s → GoodReach (s.insert key flips).1
  | erase {s : skiplist α} (idx : Nat) :
      GoodReach s → s.firstEq idx → GoodReach (s.erase idx).1

/-- Every good-reachable state keeps its strict-weak-order comparator and is
well-formed for some content list. -/
theorem GoodReach_WF {α : Type} [Inhabited α] {s : skiplist α} (h : GoodReach s) :
    IsSWO s.mCompare ∧ ∃ ids, WF s ids := by
  induction h with
  | empty compare hswo => exact ⟨hswo, [], WF_empty compare⟩
  | insert key flips hr ih =>
      obtain ⟨hswo, ids, hwf⟩ := ih
      refine ⟨by rw [insert_mCompare]; exact hswo, ?_⟩
      obtain ⟨P, Q, hids, hP, hQ, hwf2⟩ := insert_wf hwf hswo key flips
      exact ⟨_, hwf2⟩
  | erase idx hr hfe ih =>
      obtain ⟨hswo, ids, hwf⟩ := ih
      refine ⟨by rw [erase_mCompare]; exact hswo, ?_⟩
      obtain ⟨B, A, htrav, hB⟩ := hfe
      rw [hwf.traverse_eq] at htrav
      exact ⟨_, (erase_wf hwf hswo htrav hB).1⟩

/-! What skiplist::find computes on a well-formed state. -/

theorem findLevel_succ {α : Type} [Inhabited α] (s : skiplist α) (key : α) (l : Nat)
    (n : Option Nat) (fuel : Nat) :
    s.findLevel key l n (fuel + 1) = match s.nextOf l n with
      | none => Sum.inl n
      | some v =>
          if s.mCompare key (s.getNode v).mKey = true then Sum.inl n
          else if s.mCompare (s.getNode v).mKey key = true then s.findLevel key l (some v) fuel
          else Sum.inr v := rfl

/-- One level of find's loop on a split chain: it crosses the strictly
smaller `R`-part; then either the first remaining node is not above the key
and is returned (`Sum.inr`), or the walk stops just before it (`Sum.inl`),
exactly where the insert walk would. -/
theorem findLevel_on_seg {α : Type} [Inhabited α] {s : skiplist α} (key : α) (l : Nat) :
    ∀ (R : List Nat) (n : Option Nat) (QL : List Nat) (fuel : Nat),
      (∀ x ∈ R, s.mCompare (s.keyOf x) key = true) →
      (∀ x ∈ R, s.mCompare key (s.keyOf x) = false) →
      (∀ x, QL.head? = some x → s.mCompare (s.keyOf x) key = false) →
      IsSeg s.arena l (s.nextOf l n) (R ++ QL) none →
      R.length < fuel →
      (∃ v, QL.head? = some v ∧ s.mCompare key (s.keyOf v) = false ∧
        s.findLevel key l n fuel = Sum.inr v) ∨
      ((∀ v, QL.head? = some v → s.mCompare key (s.keyOf v) = true) ∧
        s.findLevel key l n fuel = Sum.inl (R.getLast?.or n))
  | [], n, QL, fuel, hR, hR2, hQh, hseg, hlen => by
      obtain ⟨f, rfl⟩ : ∃ f, fuel = f + 1 := ⟨fuel - 1, by omega⟩
      simp only [List.nil_append] at hseg
      cases QL with
      | nil =>
          have hnone : s.nextOf l n = none := hseg.nil_inv
          right
          refine ⟨(fun v hv => by cases hv), ?_⟩
          rw [findLevel_succ, hnone]
          simp
      | cons v QL2 =>
          obtain ⟨hv, hrest⟩ := hseg.cons_inv
          have hvnlt : s.mCompare (s.getNode v).mKey key = false := hQh v rfl
          by_cases hc : s.mCompare key (s.keyOf v) = true
          · right
            refine ⟨(fun u hu => by injection hu with h2; exact h2 ▸ hc), ?_⟩
            have hc2 : s.mCompare key (s.getNode v).mKey = true := hc
            rw [findLevel_succ, hv]
            simp only [hc2, if_true]
            simp
          · left
            refine ⟨v, rfl, ?_, ?_⟩
            · cases hcc : s.mCompare key (s.keyOf v)
              · rfl
              · exact absurd hcc hc
            · have hc2 : ¬ s.mCompare key (s.getNode v).mKey = true := hc
              rw [findLevel_succ, hv]
              simp only [if_neg hc2, hvnlt, Bool.false_eq_true, if_false]
  | x :: R, n, QL, fuel, hR, hR2, hQh, hseg, hlen => by
      obtain ⟨f, rfl⟩ : ∃ f, fuel = f + 1 := ⟨fuel - 1, by omega⟩
      obtain ⟨hx, hrest⟩ := hseg.cons_inv
      have hcx : s.mCompare (s.getNode x).mKey key = true := hR x (by simp)
      have hcx2 : s.mCompare key (s.getNode x).mKey = false := hR2 x (by simp)
      have hstep : s.findLevel key l n (f + 1) = s.findLevel key l (some x) f := by
        rw [findLevel_succ, hx]
        simp only [hcx2, Bool.false_eq_true, if_false, hcx, if_true]
      have IH := findLevel_on_seg key l R (some x) QL f
        (fun y hy => hR y (List.mem_cons_of_mem x hy))
        (fun y hy => hR2 y (List.mem_cons_of_mem x hy)) hQh hrest (by simpa using hlen)
      rw [hstep, getLast?_cons_or]
      exact IH

theorem findDown_succ {α : Type} [Inhabited α] (s : skiplist α) (key : α)
    (n : Option Nat) (l : Nat) :
    s.findDown key n (l + 1) = match s.findLevel key l n (s.arena.length + 1) with
      | Sum.inr v => some v
      | Sum.inl m => s.findDown key m l := rfl

/-- The descent when the key strictly precedes everything in the not-smaller
part: find reaches the bottom and reports absence. -/
theorem findDown_none {α : Type} [Inhabited α] {s : skiplist α} {ids P Q : List Nat}
    (hwf : WF s ids) (hswo : IsSWO s.mCompare) (hids : ids = P ++ Q) (key : α)
    (hP : ∀ x ∈ P, s.mCompare (s.keyOf x) key = true)
    (hneg : ∀ x ∈ Q, s.mCompare key (s.keyOf x) = true) :
    ∀ (l : Nat) (n : Option Nat), l ≤ MAX_HEIGHT →
      (∀ l2, l = l2 + 1 → DescInv s P Q l2 n) →
      s.findDown key n l = none
  | 0, n, _, _ => rfl
  | l + 1, n, hle, hinv => by
      obtain ⟨Bb, R, hn, hPL, hseg⟩ := hinv l rfl
      have hfuel : R.length < s.arena.length + 1 := by
        have h1 : R.length ≤ (levelIds s P l).length := by rw [hPL]; simp
        have h2 : (levelIds s P l).length ≤ P.length := List.length_filter_le _ _
        have h3 : P.length ≤ ids.length := by rw [hids]; simp
        have h4 := hwf.ids_length_le
        omega
      have hfl := findLevel_on_seg key l R n (levelIds s Q l) (s.arena.length + 1)
        (fun x hx => hP x (mem_of_filter_part hPL hx))
        (fun x hx => hswo.asymm _ _ (hP x (mem_of_filter_part hPL hx)))
        (fun x hx => hswo.asymm _ _
          (hneg x (List.mem_filter.mp (List.mem_of_mem_head? hx)).1))
        hseg hfuel
      have hres : R.getLast?.or n = (levelIds s P l).getLast? := by
        rw [hn, ← or_getLast_append, ← hPL]
      have hdesc : s.findDown key ((levelIds s P l).getLast?) l = none := by
        refine findDown_none hwf hswo hids key hP hneg l _ (by omega) ?_
        intro l2 hl2
        have hd := descInv_descend hids (hwf.chains l2 (by omega))
        rw [← hl2] at hd
        exact hd
      rcases hfl with ⟨v, hv1, hv2, hv3⟩ | ⟨hall, hres2⟩
      · have hvQ := (List.mem_filter.mp (List.mem_of_mem_head? hv1)).1
        rw [hneg v hvQ] at hv2
        cases hv2
      · rw [findDown_succ, hres2]
        show s.findDown key (R.getLast?.or n) l = none
        rw [hres]
        exact hdesc

/-- The descent when the not-smaller part starts with a comparator-equal
element: find returns some comparator-equal element of that part. -/
theorem findDown_found {α : Type} [Inhabited α] {s : skiplist α} {ids P Q : List Nat}
    (hwf : WF s ids) (hswo : IsSWO s.mCompare) (hids : ids = P ++ Q) (key : α)
    (hP : ∀ x ∈ P, s.mCompare (s.keyOf x) key = true)
    (hQ : ∀ x ∈ Q, s.mCompare (s.keyOf x) key = false)
    (hq0 : ∀ x, Q.head? = some x → s.mCompare key (s.keyOf x) = false)
    (hQne : Q ≠ []) :
    ∀ (l : Nat) (n : Option Nat), 1 ≤ l → l ≤ MAX_HEIGHT →
      (∀ l2, l = l2 + 1 → DescInv s P Q l2 n) →
      ∃ i, s.findDown key n l = some i ∧ i ∈ Q ∧
        s.mCompare (s.keyOf i) key = false ∧ s.mCompare key (s.keyOf i) = false
  | 0, n, h1, _, _ => by omega
  | l + 1, n, _, hle, hinv => by
      obtain ⟨Bb, R, hn, hPL, hseg⟩ := hinv l rfl
      have hfuel : R.length < s.arena.length + 1 := by
        have h1 : R.length ≤ (levelIds s P l).length := by rw [hPL]; simp
        have h2 : (levelIds s P l).length ≤ P.length := List.length_filter_le _ _
        have h3 : P.length ≤ ids.length := by rw [hids]; simp
        have h4 := hwf.ids_length_le
        omega
      have hfl := findLevel_on_seg key l R n (levelIds s Q l) (s.arena.length + 1)
        (fun x hx => hP x (mem_of_filter_part hPL hx))
        (fun x hx => hswo.asymm _ _ (hP x (mem_of_filter_part hPL hx)))
        (fun x hx => hQ x (List.mem_filter.mp (List.mem_of_mem_head? hx)).1)
        hseg hfuel
      rcases hfl with ⟨v, hv1, hv2, hv3⟩ | ⟨hall, hres2⟩
      · have hvQ := (List.mem_filter.mp (List.mem_of_mem_head? hv1)).1
        refine ⟨v, ?_, hvQ, hQ v hvQ, hv2⟩
        rw [findDown_succ, hv3]
      · -- no not-smaller node is visible-and-equal at this level: descend
        cases hl0 : l with
        | zero =>
            -- at level index 0 every element is visible, so the head of `Q`
            -- itself is inspected, and it is comparator-equal: contradiction
            exfalso
            subst hl0
            have hQ0 : levelIds s Q 0 = Q := by
              refine List.filter_eq_self.mpr ?_
              intro x hx
              have hmem : x ∈ ids := by
                rw [hids]
                exact List.mem_append_right _ hx
              have := (hwf.hbound x hmem).1
              simp
              omega
            obtain ⟨q0, A2, hQc⟩ : ∃ q0 A2, Q = q0 :: A2 := by
              cases hq : Q with
              | nil => exact absurd hq hQne
              | cons a b => exact ⟨a, b, rfl⟩
            have h1 := hall q0 (by rw [hQ0, hQc]; rfl)
            have h2 := hq0 q0 (by rw [hQc]; rfl)
            rw [h2] at h1
            cases h1
        | succ l2 =>
            subst hl0
            have hres : R.getLast?.or n = (levelIds s P (l2 + 1)).getLast? := by
              rw [hn, ← or_getLast_append, ← hPL]
            obtain ⟨i, hi1, hi2, hi3, hi4⟩ :=
              findDown_found hwf hswo hids key hP hQ hq0 hQne (l2 + 1)
                ((levelIds s P (l2 + 1)).getLast?) (by omega) (by omega)
                (fun l3 hl3 => by
                  have hd := descInv_descend hids (hwf.chains l3 (by omega))
                  rw [← hl3] at hd
                  exact hd)
            refine ⟨i, ?_, hi2, hi3, hi4⟩
            rw [findDown_succ, hres2]
            show s.findDown key (R.getLast?.or n) (l2 + 1) = some i
            rw [hres]
            exact hi1

/-- skiplist::find on a well-formed state, negative case: if the key
strictly precedes every not-smaller element, find returns the end
iterator. -/
theorem find_none {α : Type} [Inhabited α] {s : skiplist α} {ids P Q : List Nat}
    (hwf : WF s ids) (hswo : IsSWO s.mCompare) (hids : ids = P ++ Q) (key : α)
    (hP : ∀ x ∈ P, s.mCompare (s.keyOf x) key = true)
    (hneg : ∀ x ∈ Q, s.mCompare key (s.keyOf x) = true) :
    s.find key = none := by
  have he : s.find key = s.findDown key none MAX_HEIGHT := by
    show s.findDown key none s.mHead.length = _
    rw [hwf.head_len]
  rw [he]
  refine findDown_none hwf hswo hids key hP hneg MAX_HEIGHT none (Nat.le_refl _) ?_
  intro l2 hl2
  refine ⟨[], levelIds s P l2, rfl, by simp, ?_⟩
  have hch := hwf.chains l2 (by omega)
  show IsSeg s.arena l2 (s.nextOf l2 none) (levelIds s P l2 ++ levelIds s Q l2) none
  rw [show levelIds s P l2 ++ levelIds s Q l2 = levelIds s ids l2 from by
    rw [hids, levelIds_append]]
  exact hch

/-- skiplist::find on a well-formed state, positive case: if the
not-smaller part starts with a comparator-equal element, find returns a
comparator-equal element of that part. -/
theorem find_found {α : Type} [Inhabited α] {s : skiplist α} {ids P Q : List Nat}
    (hwf : WF s ids) (hswo : IsSWO s.mCompare) (hids : ids = P ++ Q) (key : α)
    (hP : ∀ x ∈ P, s.mCompare (s.keyOf x) key = true)
    (hQ : ∀ x ∈ Q, s.mCompare (s.keyOf x) key = false)
    (hq0 : ∀ x, Q.head? = some x → s.mCompare key (s.keyOf x) = false)
    (hQne : Q ≠ []) :
    ∃ i, s.find key = some i ∧ i ∈ Q ∧
      s.mCompare (s.keyOf i) key = false ∧ s.mCompare key (s.keyOf i) = false := by
  have he : s.find key = s.findDown key none MAX_HEIGHT := by
    show s.findDown key none s.mHead.length = _
    rw [hwf.head_len]
  rw [he]
  refine findDown_found hwf hswo hids key hP hQ hq0 hQne MAX_HEIGHT none (by decide)
    (Nat.le_refl _) ?_
  intro l2 hl2
  refine ⟨[], levelIds s P l2, rfl, by simp, ?_⟩
  have hch := hwf.chains l2 (by omega)
  show IsSeg s.arena l2 (s.nextOf l2 none) (levelIds s P l2 ++ levelIds s Q l2) none
  rw [show levelIds s P l2 ++ levelIds s Q l2 = levelIds s ids l2 from by
    rw [hids, levelIds_append]]
  exact hch

/-! Claim theorems for the amended find / erase / insert / height claims. -/

/-- C2 (amended): on a good-reachable state, if some element of the traversal
is comparator-equal to the key then find returns a valid non-end iterator at
a comparator-equal element; if every element compares strictly on one side
of the key, find returns the end iterator. -/
theorem C2_find_round_trip {α : Type} [Inhabited α] {s : skiplist α}
    (hr : GoodReach s) (key : α) :
    ((∃ j ∈ s.traverse, s.mCompare (s.keyOf j) key = false ∧
        s.mCompare key (s.keyOf j) = false) →
      ∃ i, s.find key = some i ∧ s.liveNode i ∧
        s.mCompare (s.keyOf i) key = false ∧ s.mCompare key (s.keyOf i) = false) ∧
    ((∀ j ∈ s.traverse, s.mCompare (s.keyOf j) key = true ∨
        s.mCompare key (s.keyOf j) = true) →
      s.find key = none) := by
  obtain ⟨hswo, ids, hwf⟩ := GoodReach_WF hr
  obtain ⟨P, Q, hids, hP, hQ⟩ := split_of_sorted hwf hswo key
  constructor
  · rintro ⟨j, hjmem, hj1, hj2⟩
    rw [hwf.traverse_eq] at hjmem
    have hjQ : j ∈ Q := by
      rw [hids] at hjmem
      rcases List.mem_append.mp hjmem with h | h
      · rw [hP j h] at hj1
        cases hj1
      · exact h
    obtain ⟨q0, Qt, hQc⟩ : ∃ q0 Qt, Q = q0 :: Qt := by
      cases hq : Q with
      | nil => rw [hq] at hjQ; cases hjQ
      | cons a b => exact ⟨a, b, rfl⟩
    have hq0 : ∀ x, Q.head? = some x → s.mCompare key (s.keyOf x) = false := by
      intro x hx
      rw [hQc] at hx
      injection hx with hx2
      subst hx2
      cases hc : s.mCompare key (s.keyOf q0)
      · rfl
      · exfalso
        have hpw := hwf.sorted
        rw [hids] at hpw
        have hpwQ := (List.pairwise_append.mp hpw).2.1
        rw [hQc] at hpwQ
        rcases List.mem_cons.mp (hQc ▸ hjQ) with rfl | hjt
        · rw [hc] at hj2
          cases hj2
        · have hnj : s.mCompare (s.keyOf j) (s.keyOf q0) = false :=
            (List.pairwise_cons.mp hpwQ).1 j hjt
          have hlt := hswo.lt_of_lt_of_nlt key (s.keyOf q0) (s.keyOf j) hc hnj
          rw [hlt] at hj2
          cases hj2
    obtain ⟨i, hf, hiQ, hi1, hi2⟩ :=
      find_found hwf hswo hids key hP hQ hq0 (by rw [hQc]; simp)
    have hiids : i ∈ ids := by
      rw [hids]
      exact List.mem_append_right _ hiQ
    exact ⟨i, hf, ⟨hwf.mem_lt i hiids, hwf.mem_live i hiids⟩, hi1, hi2⟩
  · intro hall
    refine find_none hwf hswo hids key hP ?_
    intro x hx
    have hxids : x ∈ ids := by
      rw [hids]
      exact List.mem_append_right _ hx
    have hxmem : x ∈ s.traverse := by
      rw [hwf.traverse_eq]
      exact hxids
    rcases hall x hxmem with h | h
    · rw [hQ x hx] at h
      cases h
    · exact h

/-- C3 (amended): erasing a valid, non-end iterator whose node's traversal
predecessors all have strictly smaller keys (the first node of its
comparator-equivalence class — in particular any node with no
comparator-equal duplicate before it) removes exactly that node, leaves
every other node and key in place, and returns the node's former level-0
successor, end when it was the last element. -/
theorem C3_erase_first_of_class {α : Type} [Inhabited α] {s : skiplist α}
    (hr : GoodReach s) {idx : Nat} {B A : List Nat}
    (htrav : s.traverse = B ++ idx :: A)
    (hB : ∀ x ∈ B, s.mCompare (s.keyOf x) (s.keyOf idx) = true) :
    (s.erase idx).1.traverse = B ++ A ∧
    (s.erase idx).2 = A.head? ∧
    (∀ i, (s.erase idx).1.keyOf i = s.keyOf i) ∧
    (s.erase idx).1.size + 1 = s.size := by
  obtain ⟨hswo, ids, hwf⟩ := GoodReach_WF hr
  have hids : ids = B ++ idx :: A := by
    rw [← hwf.traverse_eq]
    exact htrav
  obtain ⟨hwf2, hret⟩ := erase_wf hwf hswo hids hB
  refine ⟨hwf2.traverse_eq, hret, erase_keyOf s idx, ?_⟩
  show (s.erase idx).1.traverse.length + 1 = s.traverse.length
  rw [hwf2.traverse_eq, hwf.traverse_eq, hids]
  simp
  omega

/-- C4 (amended): on a good-reachable state, insert(key) adds exactly one
new node holding that key — even when comparator-equal keys are present —
splicing it between the strictly smaller keys and the rest; the returned
iterator is at the new node and the success flag is the literal true; the
size grows by exactly one. -/
theorem C4_insert_adds_one {α : Type} [Inhabited α] {s : skiplist α}
    (hr : GoodReach s) (key : α) (flips : List Bool) :
    ∃ P Q, s.traverse = P ++ Q ∧
      (s.insert key flips).1.traverse = P ++ s.arena.length :: Q ∧
      (s.insert key flips).2.1 = s.arena.length ∧
      (s.insert key flips).1.keyOf s.arena.length = key ∧
      (s.insert key flips).2.2 = true ∧
      (s.insert key flips).1.size = s.size + 1 := by
  obtain ⟨hswo, ids, hwf⟩ := GoodReach_WF hr
  obtain ⟨P, Q, hids, hP, hQ, hwf2⟩ := insert_wf hwf hswo key flips
  refine ⟨P, Q, by rw [hwf.traverse_eq, hids], hwf2.traverse_eq, rfl, ?_, rfl, ?_⟩
  · show (s.insertH key (chooseHeight flips)).1.keyOf s.arena.length = key
    exact insertH_keyOf_new s key (chooseHeight flips)
  · show (s.insert key flips).1.traverse.length = s.traverse.length + 1
    rw [hwf2.traverse_eq, hwf.traverse_eq, hids]
    simp
    omega

/-- C8 (amended): the height chosen by insert always lies in
[1, MAX_HEIGHT] with MAX_HEIGHT = 10; node heights are never changed by
later inserts or erases; and on a good-reachable state a node is present on
the level-`l` chain exactly when it is in the traversal and `l` is below its
height — hence each level's node set contains the next level's. -/
theorem C8_height_invariants {α : Type} [Inhabited α] {s : skiplist α}
    (hr : GoodReach s) :
    MAX_HEIGHT = 10 ∧
    (∀ flips : List Bool, 1 ≤ chooseHeight flips ∧ chooseHeight flips ≤ MAX_HEIGHT) ∧
    (∀ (key : α) (flips : List Bool) (i : Nat), i < s.arena.length →
      (s.insert key flips).1.heightOf i = s.heightOf i) ∧
    (∀ idx i : Nat, (s.erase idx).1.heightOf i = s.heightOf i) ∧
    (∀ l, l < MAX_HEIGHT → ∀ i, i ∈ s.chainAt l ↔ i ∈ s.traverse ∧ l < s.heightOf i) ∧
    (∀ l i, i ∈ s.chainAt (l + 1) → i ∈ s.chainAt l) := by
  obtain ⟨hswo, ids, hwf⟩ := GoodReach_WF hr
  refine ⟨rfl, chooseHeight_bounds, ?_, ?_, ?_, ?_⟩
  · intro key flips i hi
    show (s.insertH key (chooseHeight flips)).1.heightOf i = s.heightOf i
    exact insertH_heightOf_lt s key (chooseHeight flips) hi
  · intro idx i
    exact erase_heightOf s idx i
  · intro l hl i
    rw [hwf.chainAt_eq hl, hwf.traverse_eq]
    unfold levelIds
    rw [List.mem_filter]
    simp
  · intro l i hi
    rcases Nat.lt_or_ge (l + 1) MAX_HEIGHT with hlt | hge
    · rw [hwf.chainAt_eq hlt] at hi
      rw [hwf.chainAt_eq (by omega)]
      have h1 := (List.mem_filter.mp hi).1
      have h2 := (List.mem_filter.mp hi).2
      refine List.mem_filter.mpr ⟨h1, ?_⟩
      simp at h2 ⊢
      omega
    · rw [hwf.chainAt_high hge] at hi
      cases hi

/-- C7: for every sequence of coin-flip outcomes for the three height
selections, inserting keys 1, 3, 2 in that order into an empty ascending
container yields the forward key sequence 1, 2, 3; find(2) then returns a
valid non-end iterator at key 2; erasing that iterator returns an iterator
at key 3; the subsequent traversal yields 1, 3; and size() returns 2. -/
theorem C7_scenario (f1 f2 f3 : List Bool) :
    ∃ i, ((((emptySkiplist ltNat).insert 1 f1).1.insert 3 f2).1.insert 2 f3).1.keysList
        = [1, 2, 3] ∧
      ((((emptySkiplist ltNat).insert 1 f1).1.insert 3 f2).1.insert 2 f3).1.find 2
        = some i ∧
      ((((emptySkiplist ltNat).insert 1 f1).1.insert 3 f2).1.insert 2 f3).1.liveNode i ∧
      ((((emptySkiplist ltNat).insert 1 f1).1.insert 3 f2).1.insert 2 f3).1.keyOf i = 2 ∧
      ∃ j, (((((emptySkiplist ltNat).insert 1 f1).1.insert 3 f2).1.insert 2 f3).1.erase i).2
          = some j ∧
        (((((emptySkiplist ltNat).insert 1 f1).1.insert 3 f2).1.insert 2
          f3).1.erase i).1.keyOf j = 3 ∧
        (((((emptySkiplist ltNat).insert 1 f1).1.insert 3 f2).1.insert 2
          f3).1.erase i).1.keysList = [1, 3] ∧
        (((((emptySkiplist ltNat).insert 1 f1).1.insert 3 f2).1.insert 2
          f3).1.erase i).1.size = 2 := by
  set s1 : skiplist Nat := ((emptySkiplist ltNat).insert 1 f1).1 with hs1
  -- state after inserting 1
  have hwf1 : WF s1 [0] := by
    have h := insertH_wf (WF_empty ltNat) swoLtNat
      (show ([] : List Nat) = [] ++ [] from rfl) 1
      (by intro x hx; cases hx) (by intro x hx; cases hx)
      (chooseHeight_bounds f1).1 (chooseHeight_bounds f1).2
    exact h
  have hm1 : s1.mCompare = ltNat := insert_mCompare _ _ _
  have hswo1 : IsSWO s1.mCompare := by
    rw [hm1]
    exact swoLtNat
  have hk10 : s1.keyOf 0 = 1 := insertH_keyOf_new (emptySkiplist ltNat) 1 (chooseHeight f1)
  have ha1 : s1.arena.length = 1 := by
    show ((emptySkiplist ltNat).insertH 1 (chooseHeight f1)).1.arena.length = 1
    rw [insertH_arena_length]
    rfl
  -- state after inserting 3
  set s2 : skiplist Nat := (s1.insert 3 f2).1 with hs2
  have hwf2 : WF s2 [0, 1] := by
    have h := insertH_wf hwf1 hswo1 (show ([0] : List Nat) = [0] ++ [] from rfl) 3
      (by intro x hx
          rcases List.mem_cons.mp hx with rfl | h2
          · rw [hm1, hk10]
            decide
          · cases h2)
      (by intro x hx; cases hx)
      (chooseHeight_bounds f2).1 (chooseHeight_bounds f2).2
    rw [ha1] at h
    exact h
  have hm2 : s2.mCompare = ltNat := by
    show (s1.insert 3 f2).1.mCompare = ltNat
    rw [insert_mCompare, hm1]
  have hswo2 : IsSWO s2.mCompare := by
    rw [hm2]
    exact swoLtNat
  have hk20 : s2.keyOf 0 = 1 := by
    show (s1.insertH 3 (chooseHeight f2)).1.keyOf 0 = 1
    rw [insertH_keyOf_lt s1 3 (chooseHeight f2) (by rw [ha1]; decide)]
    exact hk10
  have hk21 : s2.keyOf 1 = 3 := by
    have h2 := insertH_keyOf_new s1 3 (chooseHeight f2)
    rw [ha1] at h2
    exact h2
  have ha2 : s2.arena.length = 2 := by
    show (s1.insertH 3 (chooseHeight f2)).1.arena.length = 2
    rw [insertH_arena_length, ha1]
  -- state after inserting 2
  set s3 : skiplist Nat := (s2.insert 2 f3).1 with hs3
  have hwf3 : WF s3 [0, 2, 1] := by
    have h := insertH_wf hwf2 hswo2 (show ([0, 1] : List Nat) = [0] ++ [1] from rfl) 2
      (by intro x hx
          rcases List.mem_cons.mp hx with rfl | h2
          · rw [hm2, hk20]
            decide
          · cases h2)
      (by intro x hx
          rcases List.mem_cons.mp hx with rfl | h2
          · rw [hm2, hk21]
            decide
          · cases h2)
      (chooseHeight_bounds f3).1 (chooseHeight_bounds f3).2
    rw [ha2] at h
    exact h
  have hm3 : s3.mCompare = ltNat := by
    show (s2.insert 2 f3).1.mCompare = ltNat
    rw [insert_mCompare, hm2]
  have hswo3 : IsSWO s3.mCompare := by
    rw [hm3]
    exact swoLtNat
  have hk30 : s3.keyOf 0 = 1 := by
    show (s2.insertH 2 (chooseHeight f3)).1.keyOf 0 = 1
    rw [insertH_keyOf_lt s2 2 (chooseHeight f3) (by rw [ha2]; decide)]
    exact hk20
  have hk31 : s3.keyOf 1 = 3 := by
    show (s2.insertH 2 (chooseHeight f3)).1.keyOf 1 = 3
    rw [insertH_keyOf_lt s2 2 (chooseHeight f3) (by rw [ha2]; decide)]
    exact hk21
  have hk32 : s3.keyOf 2 = 2 := by
    have h2 := insertH_keyOf_new s2 2 (chooseHeight f3)
    rw [ha2] at h2
    exact h2
  -- traversal 1, 2, 3
  have hkl3 : s3.keysList = [1, 2, 3] := by
    rw [hwf3.keysList_eq]
    rw [show ([0, 2, 1].map s3.keyOf) = [s3.keyOf 0, s3.keyOf 2, s3.keyOf 1] from rfl,
        hk30, hk32, hk31]
  -- find 2 lands on node 2
  obtain ⟨i, hfind, hiQ, hieq1, hieq2⟩ :=
    find_found hwf3 hswo3 (show ([0, 2, 1] : List Nat) = [0] ++ [2, 1] from rfl) 2
      (by intro x hx
          rcases List.mem_cons.mp hx with rfl | h2
          · rw [hm3, hk30]
            decide
          · cases h2)
      (by intro x hx
          rcases List.mem_cons.mp hx with rfl | h2
          · rw [hm3, hk32]
            decide
          · rcases List.mem_cons.mp h2 with rfl | h3
            · rw [hm3, hk31]
              decide
            · cases h3)
      (by intro x hx
          injection hx with hx2
          subst hx2
          rw [hm3, hk32]
          decide)
      (by simp)
  have hieq : i = 2 := by
    rcases List.mem_cons.mp hiQ with rfl | h2
    · rfl
    · rcases List.mem_cons.mp h2 with rfl | h3
      · exfalso
        rw [hm3, hk31] at hieq2
        exact absurd hieq2 (by decide)
      · cases h3
  subst hieq
  -- erase node 2, the only key-2 node
  obtain ⟨hwf4, hret⟩ := erase_wf hwf3 hswo3
    (show ([0, 2, 1] : List Nat) = [0] ++ 2 :: [1] from rfl)
    (by intro x hx
        rcases List.mem_cons.mp hx with rfl | h2
        · rw [hm3, hk30, hk32]
          decide
        · cases h2)
  have hk41 : (s3.erase 2).1.keyOf 1 = 3 := by
    rw [erase_keyOf]
    exact hk31
  have hk40 : (s3.erase 2).1.keyOf 0 = 1 := by
    rw [erase_keyOf]
    exact hk30
  have hkl4 : (s3.erase 2).1.keysList = [1, 3] := by
    have hmap4 : List.map (s3.erase 2).1.keyOf ([0] ++ [1])
        = [(s3.erase 2).1.keyOf 0, (s3.erase 2).1.keyOf 1] := rfl
    rw [hwf4.keysList_eq, hmap4, hk40, hk41]
  have hsz4 : (s3.erase 2).1.size = 2 := by
    show (s3.erase 2).1.traverse.length = 2
    rw [hwf4.traverse_eq]
    rfl
  refine ⟨2, hkl3, hfind, ?_, hk32, 1, hret, hk41, hkl4, hsz4⟩
  exact ⟨hwf3.mem_lt 2 (by simp), hwf3.mem_live 2 (by simp)⟩

/-! The copy constructor: re-inserting a sorted key sequence produces a
pointwise comparator-equivalent sequence (each run of equivalent keys is
re-created, in reversed order, at the same positions). -/

theorem equiv_trans2 {α : Type} {c : α → α → Bool} (hswo : IsSWO c) (a b d : α)
    (h1 : c a b = false ∧ c b a = false) (h2 : c b d = false ∧ c d b = false) :
    c a d = false ∧ c d a = false :=
  ⟨hswo.equiv_trans a b d h1.1 h1.2 h2.1 h2.2,
   hswo.equiv_trans d b a h2.2 h2.1 h1.2 h1.1⟩

theorem forall2_mem_left {γ δ : Type} {R : γ → δ → Prop} {xs : List γ} {ys : List δ}
    (h : List.Forall₂ R xs ys) : ∀ x ∈ xs, ∃ y ∈ ys, R x y := by
  induction h with
  | nil =>
      intro x hx
      cases hx
  | cons hr hrest ih =>
      intro x hx
      rcases List.mem_cons.mp hx with rfl | hx2
      · exact ⟨_, by simp, hr⟩
      · obtain ⟨y, hy, hxy⟩ := ih x hx2
        exact ⟨y, List.mem_cons_of_mem _ hy, hxy⟩

theorem all_equiv_forall2 {α : Type} {c : α → α → Bool} (hswo : IsSWO c) (k : α) :
    ∀ (xs ys : List α), xs.length = ys.length →
      (∀ x ∈ xs, c x k = false ∧ c k x = false) →
      (∀ y ∈ ys, c k y = false ∧ c y k = false) →
      List.Forall₂ (fun a b => c a b = false ∧ c b a = false) xs ys
  | [], [], _, _, _ => List.Forall₂.nil
  | [], y :: ys, h, _, _ => by cases h
  | x :: xs, [], h, _, _ => by cases h
  | x :: xs, y :: ys, h, hx, hy => by
      refine List.Forall₂.cons ?_ ?_
      · exact equiv_trans2 hswo x k y (hx x (by simp)) (hy y (by simp))
      · exact all_equiv_forall2 hswo k xs ys (by simpa using h)
          (fun z hz => hx z (List.mem_cons_of_mem _ hz))
          (fun z hz => hy z (List.mem_cons_of_mem _ hz))

/-- Re-inserting the keys `ks` (sorted, and all not preceding any already
present key) into a well-formed state whose contents are pointwise
comparator-equivalent to `M` produces contents pointwise equivalent to
`M ++ ks`. -/
theorem insertAll_equiv {α : Type} [Inhabited α] {c : α → α → Bool} (hswo : IsSWO c) :
    ∀ (ks : List α) (fss : List (List Bool)) (t : skiplist α) (tids : List Nat)
      (M : List α),
      t.mCompare = c →
      WF t tids →
      ks.Pairwise (fun a b => c b a = false) →
      (∀ k ∈ ks, ∀ i ∈ tids, c k (t.keyOf i) = false) →
      List.Forall₂ (fun a b => c a b = false ∧ c b a = false) M t.keysList →
      List.Forall₂ (fun a b => c a b = false ∧ c b a = false) (M ++ ks)
        (insertAll t ks fss).keysList
  | [], fss, t, tids, M, hc, hwf, _, _, hM => by simpa using hM
  | k :: ks, fss, t, tids, M, hc, hwf, hsort, hfut, hM => by
      have hswot : IsSWO t.mCompare := by
        rw [hc]
        exact hswo
      obtain ⟨P, Q, hids, hP, hQ⟩ := split_of_sorted hwf hswot k
      rw [hc] at hP hQ
      have hPmem : ∀ x ∈ P, x ∈ tids := fun x hx => hids ▸ List.mem_append_left Q hx
      have hQmem : ∀ x ∈ Q, x ∈ tids := fun x hx => hids ▸ List.mem_append_right P hx
      have hPlt : ∀ x ∈ P, x < t.arena.length := fun x hx => hwf.mem_lt x (hPmem x hx)
      have hQlt : ∀ x ∈ Q, x < t.arena.length := fun x hx => hwf.mem_lt x (hQmem x hx)
      have hwf2 : WF (t.insert k (fss.headD [])).1 (P ++ t.arena.length :: Q) := by
        show WF (t.insertH k (chooseHeight (fss.headD []))).1 (P ++ t.arena.length :: Q)
        refine insertH_wf hwf hswot hids k ?_ ?_
          (chooseHeight_bounds _).1 (chooseHeight_bounds _).2
        · intro x hx
          rw [hc]
          exact hP x hx
        · intro x hx
          rw [hc]
          exact hQ x hx
      have hc2 : (t.insert k (fss.headD [])).1.mCompare = c := by
        rw [insert_mCompare, hc]
      have hk2new : (t.insert k (fss.headD [])).1.keyOf t.arena.length = k := by
        show (t.insertH k (chooseHeight (fss.headD []))).1.keyOf t.arena.length = k
        exact insertH_keyOf_new t k (chooseHeight (fss.headD []))
      have hk2old : ∀ i, i < t.arena.length →
          (t.insert k (fss.headD [])).1.keyOf i = t.keyOf i := by
        intro i hi
        show (t.insertH k (chooseHeight (fss.headD []))).1.keyOf i = t.keyOf i
        exact insertH_keyOf_lt t k (chooseHeight (fss.headD [])) hi
      have hkeys2 : (t.insert k (fss.headD [])).1.keysList
          = P.map t.keyOf ++ k :: Q.map t.keyOf := by
        rw [hwf2.keysList_eq, List.map_append, List.map_cons, hk2new]
        congr 1
        · exact List.map_congr_left (fun x hx => hk2old x (hPlt x hx))
        · congr 1
          exact List.map_congr_left (fun x hx => hk2old x (hQlt x hx))
      have hM' : List.Forall₂ (fun a b => c a b = false ∧ c b a = false) M
          (P.map t.keyOf ++ Q.map t.keyOf) := by
        have h2 := hM
        rw [hwf.keysList_eq, hids, List.map_append] at h2
        exact h2
      have hM1 := List.forall₂_take_append M _ _ hM'
      have hM2 := List.forall₂_drop_append M _ _ hM'
      have hMsplit : M = M.take (P.map t.keyOf).length ++ M.drop (P.map t.keyOf).length :=
        (List.take_append_drop _ M).symm
      -- every drop-part element is equivalent to k, via its counterpart in Q
      have hQequiv : ∀ y ∈ Q.map t.keyOf, c k y = false ∧ c y k = false := by
        intro y hy
        obtain ⟨q, hq, rfl⟩ := List.mem_map.mp hy
        exact ⟨hfut k (List.mem_cons_self _ _) q (hQmem q hq), hQ q hq⟩
      have hM2equiv : ∀ x ∈ M.drop (P.map t.keyOf).length, c x k = false ∧ c k x = false := by
        intro x hx
        obtain ⟨y, hy, hxy⟩ := forall2_mem_left hM2 x hx
        have hyk := hQequiv y hy
        exact equiv_trans2 hswo x y k hxy ⟨hyk.2, hyk.1⟩
      have hM2' : List.Forall₂ (fun a b => c a b = false ∧ c b a = false)
          (M ++ [k]) (t.insert k (fss.headD [])).1.keysList := by
        rw [hkeys2, hMsplit, List.append_assoc]
        refine List.rel_append hM1 ?_
        refine all_equiv_forall2 hswo k _ _ ?_ ?_ ?_
        · have hlen := hM2.length_eq
          simp only [List.length_append, List.length_cons, List.length_map] at hlen ⊢
          simp [hlen]
        · intro x hx
          rcases List.mem_append.mp hx with h2 | h2
          · exact hM2equiv x h2
          · rcases List.mem_cons.mp h2 with rfl | h3
            · exact ⟨hswo.irrefl x, hswo.irrefl x⟩
            · cases h3
        · intro y hy
          rcases List.mem_cons.mp hy with rfl | h2
          · exact ⟨hswo.irrefl y, hswo.irrefl y⟩
          · exact hQequiv y h2
      have hfut2 : ∀ k2 ∈ ks, ∀ i ∈ P ++ t.arena.length :: Q,
          c k2 ((t.insert k (fss.headD [])).1.keyOf i) = false := by
        intro k2 hk2 i hi
        rcases List.mem_append.mp hi with hiP | hiT
        · rw [hk2old i (hPlt i hiP)]
          exact hfut k2 (List.mem_cons_of_mem _ hk2) i (hPmem i hiP)
        · rcases List.mem_cons.mp hiT with rfl | hiQ
          · rw [hk2new]
            exact (List.pairwise_cons.mp hsort).1 k2 hk2
          · rw [hk2old i (hQlt i hiQ)]
            exact hfut k2 (List.mem_cons_of_mem _ hk2) i (hQmem i hiQ)
      have hrec := insertAll_equiv hswo ks fss.tail (t.insert k (fss.headD [])).1
        (P ++ t.arena.length :: Q) (M ++ [k]) hc2 hwf2
        (List.pairwise_cons.mp hsort).2 hfut2 hM2'
      show List.Forall₂ (fun a b => c a b = false ∧ c b a = false) (M ++ k :: ks)
        (insertAll (t.insert k (fss.headD [])).1 ks fss.tail).keysList
      rw [show M ++ k :: ks = (M ++ [k]) ++ ks from by simp]
      exact hrec

/-- C5 (amended): copy construction re-inserts the source's keys in order
under the copy's default-constructed comparator; when that default instance
is the source's own comparator and the source is good-reachable, the copy's
forward traversal is pointwise comparator-equivalent to the source's (runs
of comparator-equal keys may be reordered within themselves, and only
those).  Mutating the copy can never change the source, which the copy
constructor never writes to. -/
theorem C5_copy_equivalent {α : Type} [Inhabited α] {src : skiplist α}
    (hr : GoodReach src) (fss : List (List Bool)) :
    List.Forall₂ (fun a b => src.mCompare a b = false ∧ src.mCompare b a = false)
      src.keysList (copyCtor src.mCompare src fss).keysList := by
  obtain ⟨hswo, ids, hwf⟩ := GoodReach_WF hr
  have hsorted : src.keysList.Pairwise (fun a b => src.mCompare b a = false) := by
    rw [hwf.keysList_eq]
    refine List.pairwise_map.mpr ?_
    exact hwf.sorted
  have h := insertAll_equiv hswo src.keysList fss (emptySkiplist src.mCompare) [] []
    rfl (WF_empty _) hsorted (by intro k hk i hi; cases hi) List.Forall₂.nil
  simpa using h

/-! Concrete instantiations of the claim theorems with hypotheses. -/

/-- C2 witness: on the good-reachable one-element container holding key 5,
find(5) returns a valid non-end iterator at a comparator-equal element. -/
theorem C2_witness :
    ∃ i, (((emptySkiplist ltNat).insert 5 []).1).find 5 = some i ∧
      (((emptySkiplist ltNat).insert 5 []).1).liveNode i ∧
      (((emptySkiplist ltNat).insert 5 []).1).mCompare
        ((((emptySkiplist ltNat).insert 5 []).1).keyOf i) 5 = false ∧
      (((emptySkiplist ltNat).insert 5 []).1).mCompare 5
        ((((emptySkiplist ltNat).insert 5 []).1).keyOf i) = false :=
  (C2_find_round_trip (GoodReach.insert 5 [] (GoodReach.empty ltNat swoLtNat)) 5).1
    ⟨0, by decide, by decide, by decide⟩

/-- C3 witness: erasing the sole element (trivially first of its class) of a
good-reachable container empties the traversal and returns end. -/
theorem C3_witness :
    ((((emptySkiplist ltNat).insert 5 []).1).erase 0).1.traverse = [] ++ [] ∧
    ((((emptySkiplist ltNat).insert 5 []).1).erase 0).2 = ([] : List Nat).head? ∧
    (∀ i, ((((emptySkiplist ltNat).insert 5 []).1).erase 0).1.keyOf i
      = (((emptySkiplist ltNat).insert 5 []).1).keyOf i) ∧
    ((((emptySkiplist ltNat).insert 5 []).1).erase 0).1.size + 1
      = (((emptySkiplist ltNat).insert 5 []).1).size :=
  C3_erase_first_of_class (GoodReach.insert 5 [] (GoodReach.empty ltNat swoLtNat))
    (show (((emptySkiplist ltNat).insert 5 []).1).traverse = [] ++ 0 :: [] from by decide)
    (by intro x hx; cases hx)

/-- C4 witness: inserting key 5 into the good-reachable container already
holding a comparator-equal key 5 still adds exactly one node and reports
success. -/
theorem C4_witness :
    ∃ P Q, (((emptySkiplist ltNat).insert 5 []).1).traverse = P ++ Q ∧
      ((((emptySkiplist ltNat).insert 5 []).1).insert 5 [true]).1.traverse
        = P ++ (((emptySkiplist ltNat).insert 5 []).1).arena.length :: Q ∧
      ((((emptySkiplist ltNat).insert 5 []).1).insert 5 [true]).2.1
        = (((emptySkiplist ltNat).insert 5 []).1).arena.length ∧
      ((((emptySkiplist ltNat).insert 5 []).1).insert 5 [true]).1.keyOf
        (((emptySkiplist ltNat).insert 5 []).1).arena.length = 5 ∧
      ((((emptySkiplist ltNat).insert 5 []).1).insert 5 [true]).2.2 = true ∧
      ((((emptySkiplist ltNat).insert 5 []).1).insert 5 [true]).1.size
        = (((emptySkiplist ltNat).insert 5 []).1).size + 1 :=
  C4_insert_adds_one (GoodReach.insert 5 [] (GoodReach.empty ltNat swoLtNat)) 5 [true]

/-- C5 witness: copying the good-reachable one-element container with the
matching default comparator yields a pointwise comparator-equivalent
traversal. -/
theorem C5_witness :
    List.Forall₂ (fun a b => (((emptySkiplist ltNat).insert 5 []).1).mCompare a b = false ∧
        (((emptySkiplist ltNat).insert 5 []).1).mCompare b a = false)
      (((emptySkiplist ltNat).insert 5 []).1).keysList
      (copyCtor (((emptySkiplist ltNat).insert 5 []).1).mCompare
        (((emptySkiplist ltNat).insert 5 []).1) []).keysList :=
  C5_copy_equivalent (GoodReach.insert 5 [] (GoodReach.empty ltNat swoLtNat)) []

/-- C8 witness: the height bounds, immutability, exact level membership and
monotone level containment, on the good-reachable one-element container. -/
theorem C8_witness :
    MAX_HEIGHT = 10 ∧
    (∀ flips : List Bool, 1 ≤ chooseHeight flips ∧ chooseHeight flips ≤ MAX_HEIGHT) ∧
    (∀ (key : Nat) (flips : List Bool) (i : Nat),
      i < (((emptySkiplist ltNat).insert 5 []).1).arena.length →
      ((((emptySkiplist ltNat).insert 5 []).1).insert key flips).1.heightOf i
        = (((emptySkiplist ltNat).insert 5 []).1).heightOf i) ∧
    (∀ idx i : Nat, ((((emptySkiplist ltNat).insert 5 []).1).erase idx).1.heightOf i
        = (((emptySkiplist ltNat).insert 5 []).1).heightOf i) ∧
    (∀ l, l < MAX_HEIGHT → ∀ i, i ∈ (((emptySkiplist ltNat).insert 5 []).1).chainAt l ↔
        i ∈ (((emptySkiplist ltNat).insert 5 []).1).traverse ∧
          l < (((emptySkiplist ltNat).insert 5 []).1).heightOf i) ∧
    (∀ l i, i ∈ (((emptySkiplist ltNat).insert 5 []).1).chainAt (l + 1) →
        i ∈ (((emptySkiplist ltNat).insert 5 []).1).chainAt l) :=
  C8_height_invariants (GoodReach.insert 5 [] (GoodReach.empty ltNat swoLtNat))

end nonstd
